import Mathlib

/-!
Verification development for the `hackatime-setup` editor-plugin subsystem.

The Zed adapter patches a JSON-with-comments (`jsonc`) settings document:
it parses the file into a formatting-preserving concrete syntax tree,
ensures the root is an object, ensures `auto_install_extensions` is an
object, sets `wakatime` to `true` inside it (appending the key when absent,
overwriting only the value when present) and serializes the tree back.
We embed that document model and the patch pipeline, together with the
CLI-resolution and install flows of the VS Code and JetBrains adapters.

Strings are modelled as `List Char`; the parser is fuel-indexed (fuel
exhaustion is a distinguished outcome `PR.out`, proved unreachable at the
fuel used by the top-level entry points).
-/

namespace HackatimeSetup

/-! ## Character classes and token scanners -/

def isWsChar (c : Char) : Bool := c = ' ' || c = '\t' || c = '\n' || c = '\r'

def isScalarChar (c : Char) : Bool :=
  c.isAlphanum || c = '-' || c = '+' || c = '.' || c = '_'

/-- Consume characters through the first `'\n'` (inclusive), or to the end. -/
def takeLine : List Char → List Char × List Char
  | [] => ([], [])
  | c :: cs =>
    if c = '\n' then ([c], cs)
    else
      let p := takeLine cs
      (c :: p.1, p.2)

/-- Consume a block comment body through the closing `*/`; the flag records
whether the previous character was `'*'`.  `none` means unterminated. -/
def takeBlockAux : Bool → List Char → Option (List Char × List Char)
  | _, [] => none
  | sawStar, c :: cs =>
    if sawStar && c = '/' then some ([c], cs)
    else (takeBlockAux (c = '*') cs).map fun p => (c :: p.1, p.2)

/-- Consume a string token body (after the opening quote) through the closing
quote; the flag records whether the previous character was an unconsumed
backslash escape. -/
def strTailAux : Bool → List Char → Option (List Char × List Char)
  | _, [] => none
  | true, c :: cs => (strTailAux false cs).map fun p => (c :: p.1, p.2)
  | false, c :: cs =>
    if c = '"' then some ([c], cs)
    else if c = '\\' then (strTailAux true cs).map fun p => (c :: p.1, p.2)
    else if c = '\n' then none
    else (strTailAux false cs).map fun p => (c :: p.1, p.2)

def strTail (cs : List Char) : Option (List Char × List Char) := strTailAux false cs

/-- Maximal run of scalar-token characters. -/
def takeScalar : List Char → List Char × List Char
  | [] => ([], [])
  | c :: cs =>
    if isScalarChar c then
      let p := takeScalar cs
      (c :: p.1, p.2)
    else ([], c :: cs)

def takeDigits : List Char → List Char × List Char
  | [] => ([], [])
  | c :: cs =>
    if c.isDigit then
      let p := takeDigits cs
      (c :: p.1, p.2)
    else ([], c :: cs)

def numIntPart : List Char → Option (List Char)
  | [] => none
  | '0' :: cs => some cs
  | c :: cs => if c.isDigit then some (takeDigits cs).2 else none

def numFracPart : List Char → Option (List Char)
  | '.' :: cs =>
    let p := takeDigits cs
    if p.1.isEmpty then none else some p.2
  | cs => some cs

def numExpPart : List Char → Option (List Char)
  | [] => some []
  | c :: cs =>
    if c = 'e' || c = 'E' then
      let cs2 := match cs with
        | s :: t => if s = '+' || s = '-' then t else s :: t
        | [] => []
      let p := takeDigits cs2
      if p.1.isEmpty then none else some p.2
    else some (c :: cs)

/-- JSON number grammar (optional minus, integer part, optional fraction,
optional exponent). -/
def isNumberTok (s : List Char) : Bool :=
  let s1 := match s with | '-' :: t => t | t => t
  match numIntPart s1 with
  | none => false
  | some r1 =>
    match numFracPart r1 with
    | none => false
    | some r2 =>
      match numExpPart r2 with
      | none => false
      | some r3 => r3.isEmpty

def validScalar (s : List Char) : Bool :=
  s == "true".data || s == "false".data || s == "null".data || isNumberTok s

/-! ## Parse results -/

/-- Parser outcome: ran out of fuel, parse error, or success with the
remaining input. -/
inductive PR (α : Type) : Type where
  | out : PR α
  | fail : PR α
  | ok : α → List Char → PR α
  deriving DecidableEq

def PR.bind : PR α → (α → List Char → PR β) → PR β
  | .out, _ => .out
  | .fail, _ => .fail
  | .ok a r, g => g a r

def liftO : Option (List Char × List Char) → PR (List Char)
  | none => .fail
  | some p => .ok p.1 p.2

/-- Consume a maximal run of trivia (whitespace and comments).  Fails on an
unterminated block comment; stops (without failing) at anything else. -/
def skipT : Nat → List Char → PR (List Char)
  | 0, _ => .out
  | _ + 1, [] => .ok [] []
  | f + 1, c :: cs =>
    if isWsChar c then
      (skipT f cs).bind fun t r => .ok (c :: t) r
    else if c = '/' then
      match cs with
      | [] => .ok [] (c :: cs)
      | c2 :: cs2 =>
        if c2 = '/' then
          (skipT f (takeLine cs2).2).bind fun t r =>
            .ok ('/' :: '/' :: ((takeLine cs2).1 ++ t)) r
        else if c2 = '*' then
          match takeBlockAux false cs2 with
          | none => .fail
          | some q => (skipT f q.2).bind fun t r => .ok ('/' :: '*' :: (q.1 ++ t)) r
        else .ok [] (c :: cs)
    else .ok [] (c :: cs)

/-- Trivia scanner at its always-sufficient fuel. -/
def skipTriviaW (cs : List Char) : PR (List Char) := skipT (cs.length + 1) cs

/-! ## The formatting-preserving document tree

Objects are structural (the patch needs to walk them); scalars, strings and
their exact source text are kept raw.  Each node stores the trivia
(whitespace/comments) around its tokens, so printing reproduces the source
text exactly. -/

mutual
inductive JVal : Type where
  | raw : List Char → JVal
  | obj : JBody → JVal
  | arr : JArr → JVal

/-- Object body: either the closing trivia, or one property
`pre key preColon ':' postColon value post [',']` followed by the rest. -/
inductive JBody : Type where
  | nil : List Char → JBody
  | cons : List Char → List Char → List Char → List Char → JVal → List Char → Bool → JBody → JBody

/-- Array body: either the closing trivia, or one element
`pre value post [',']` followed by the rest. -/
inductive JArr : Type where
  | nil : List Char → JArr
  | cons : List Char → JVal → List Char → Bool → JArr → JArr
end

mutual
def printVal : JVal → List Char
  | .raw s => s
  | .obj b => '{' :: printBody b
  | .arr a => '[' :: printArr a

/-- Prints the body including the closing `'}'`. -/
def printBody : JBody → List Char
  | .nil inner => inner ++ ['}']
  | .cons pre key pc poc v post comma rest =>
    pre ++ key ++ pc ++ ':' :: (poc ++ printVal v ++ post ++
      (if comma then [','] else []) ++ printBody rest)

/-- Prints the array body including the closing `']'`. -/
def printArr : JArr → List Char
  | .nil inner => inner ++ [']']
  | .cons pre v post comma rest =>
    pre ++ printVal v ++ post ++ (if comma then [','] else []) ++ printArr rest
end

/-- A whole document: leading trivia, optional root value, trailing trivia. -/
structure JRoot where
  pre : List Char
  value : Option JVal
  post : List Char

def printRoot (r : JRoot) : List Char :=
  r.pre ++ (match r.value with
    | none => []
    | some v => printVal v ++ r.post)

/-! ## The tolerant-JSON parser -/

mutual
def parseValueF : Nat → List Char → PR JVal
  | 0, _ => .out
  | f + 1, cs =>
    match cs with
    | [] => .fail
    | '{' :: r => (parseBodyF f r).bind fun b r2 => .ok (.obj b) r2
    | '[' :: r => (parseArrF f r).bind fun a r2 => .ok (.arr a) r2
    | '"' :: r => (liftO (strTail r)).bind fun t r2 => .ok (.raw ('"' :: t)) r2
    | c :: r =>
      if !(takeScalar (c :: r)).1.isEmpty && validScalar (takeScalar (c :: r)).1 then
        .ok (.raw (takeScalar (c :: r)).1) (takeScalar (c :: r)).2
      else .fail
termination_by structural f _ => f

/-- Parse an object body after the opening `'{'` (or after a separating
comma), consuming through the closing `'}'`. -/
def parseBodyF : Nat → List Char → PR JBody
  | 0, _ => .out
  | f + 1, cs =>
    (skipTriviaW cs).bind fun pre r1 =>
    match r1 with
    | '}' :: r2 => .ok (.nil pre) r2
    | '"' :: r2 =>
      (liftO (strTail r2)).bind fun kt r3 =>
      (skipTriviaW r3).bind fun pc r4 =>
      match r4 with
      | ':' :: r5 =>
        (skipTriviaW r5).bind fun poc r6 =>
        (parseValueF f r6).bind fun v r7 =>
        (skipTriviaW r7).bind fun post r8 =>
        match r8 with
        | ',' :: r9 =>
          (parseBodyF f r9).bind fun rest r10 =>
            .ok (.cons pre ('"' :: kt) pc poc v post true rest) r10
        | '}' :: r9 => .ok (.cons pre ('"' :: kt) pc poc v post false (.nil [])) r9
        | _ => .fail
      | _ => .fail
    | _ => .fail
termination_by structural f _ => f

/-- Parse an array body after the opening `'['` (or after a separating
comma), consuming through the closing `']'`. -/
def parseArrF : Nat → List Char → PR JArr
  | 0, _ => .out
  | f + 1, cs =>
    (skipTriviaW cs).bind fun pre r1 =>
    match r1 with
    | ']' :: r2 => .ok (.nil pre) r2
    | _ =>
      (parseValueF f r1).bind fun v r2 =>
      (skipTriviaW r2).bind fun post r3 =>
      match r3 with
      | ',' :: r4 =>
        (parseArrF f r4).bind fun rest r5 => .ok (.cons pre v post true rest) r5
      | ']' :: r4 => .ok (.cons pre v post false (.nil [])) r4
      | _ => .fail
termination_by structural f _ => f
end

def rootFuel (cs : List Char) : Nat := 2 * cs.length + 2

/-- Parse a whole document (`CstRootNode::parse` with the default tolerant
options: comments and trailing commas allowed, keys must be strings). -/
def parseRoot (cs : List Char) : Option JRoot :=
  match (skipTriviaW cs).bind (fun pre r1 =>
    match r1 with
    | [] => .ok (⟨pre, none, []⟩ : JRoot) []
    | _ =>
      (parseValueF (rootFuel cs) r1).bind fun v r2 =>
      (skipTriviaW r2).bind fun post r3 =>
      match r3 with
      | [] => .ok (⟨pre, some v, post⟩ : JRoot) []
      | _ => .fail) with
  | .ok r _ => some r
  | _ => none

/-! ## Key decoding and object editing -/

def hexVal (c : Char) : Option Nat :=
  let n := c.toNat
  if c.isDigit then some (n - 48)
  else if 'a' ≤ c && c ≤ 'f' then some (n - 87)
  else if 'A' ≤ c && c ≤ 'F' then some (n - 55)
  else none

def escChar (c : Char) : Option Char :=
  if c = '"' ∨ c = '\\' ∨ c = '/' then some c
  else if c = 'n' then some '\n'
  else if c = 't' then some '\t'
  else if c = 'r' then some '\r'
  else if c = 'b' then some (Char.ofNat 8)
  else if c = 'f' then some (Char.ofNat 12)
  else none

/-- Decode a string token after its opening quote (escape processing),
requiring the closing quote to end the token. -/
def decodeTail : List Char → Option (List Char)
  | [] => none
  | '"' :: rest => if rest.isEmpty then some [] else none
  | '\\' :: 'u' :: a :: b :: c :: d :: rest =>
    (hexVal a).bind fun ha =>
    (hexVal b).bind fun hb =>
    (hexVal c).bind fun hc =>
    (hexVal d).bind fun hd =>
    (decodeTail rest).map fun t =>
      Char.ofNat (((ha * 16 + hb) * 16 + hc) * 16 + hd) :: t
  | '\\' :: e :: rest =>
    (escChar e).bind fun c => (decodeTail rest).map fun t => c :: t
  | c :: rest => (decodeTail rest).map fun t => c :: t

def decodeKey : List Char → Option (List Char)
  | '"' :: t => decodeTail t
  | _ => none

/-- `CstObject::get`: first property whose decoded key equals `name`. -/
def findProp (b : JBody) (name : List Char) : Option JVal :=
  match b with
  | .nil _ => none
  | .cons _ key _ _ v _ _ rest =>
    if decodeKey key = some name then some v else findProp rest name

/-- Replace the value of the first property named `name` by `f` applied to
it, leaving every other component of the document untouched. -/
def mapPropValue (b : JBody) (name : List Char) (f : JVal → JVal) : JBody :=
  match b with
  | .nil i => .nil i
  | .cons pre key pc poc v post comma rest =>
    if decodeKey key = some name then .cons pre key pc poc (f v) post comma rest
    else .cons pre key pc poc v post comma (mapPropValue rest name f)

/-- `CstObject::append`: add a property at the end of the object, inserting
a separating comma after the previous last property when needed. -/
def appendProp (b : JBody) (key : List Char) (nv : JVal) : JBody :=
  match b with
  | .nil inner => .cons (inner ++ [' ']) key [] [' '] nv [] false (.nil [])
  | .cons pre k pc poc v post comma rest =>
    match rest with
    | .nil inner =>
      .cons pre k pc poc v post true
        (.cons (inner ++ [' ']) key [] [' '] nv [] false (.nil []))
    | .cons _ _ _ _ _ _ _ _ =>
      .cons pre k pc poc v post comma (appendProp rest key nv)

def aieName : List Char := "auto_install_extensions".data

def aieKeyTok : List Char := '"' :: ("auto_install_extensions".data ++ ['"'])

def wakName : List Char := "wakatime".data

def wakKeyTok : List Char := '"' :: ("wakatime".data ++ ['"'])

def trueRaw : List Char := "true".data

inductive PErr : Type where
  | parse : PErr
  | rootShape : PErr
  | aieShape : PErr
  deriving DecidableEq

instance {ε α : Type} [DecidableEq ε] [DecidableEq α] : DecidableEq (Except ε α) := by
  intro a b
  cases a <;> cases b
  case error.error e1 e2 =>
    exact if h : e1 = e2 then .isTrue (by rw [h]) else .isFalse (by simpa using h)
  case ok.ok a1 a2 =>
    exact if h : a1 = a2 then .isTrue (by rw [h]) else .isFalse (by simpa using h)
  case error.ok e1 a2 => exact .isFalse (by simp)
  case ok.error a1 e2 => exact .isFalse (by simp)

/-- `root_obj.object_value_or_create("auto_install_extensions")`: return the
body unchanged when the key maps to an object, create `{}` under the key
when absent, error when the key maps to a non-object. -/
def orCreateAie (b : JBody) : Except PErr JBody :=
  match findProp b aieName with
  | none => .ok (appendProp b aieKeyTok (.obj (.nil [])))
  | some (.obj _) => .ok b
  | some _ => .error .aieShape

/-- The `wakatime` step: inside the `auto_install_extensions` object, append
`"wakatime": true` when absent, otherwise overwrite only the value. -/
def wakUpdate (v : JVal) : JVal :=
  match v with
  | .obj b2 =>
    .obj (match findProp b2 wakName with
      | none => appendProp b2 wakKeyTok (.raw trueRaw)
      | some _ => mapPropValue b2 wakName fun _ => .raw trueRaw)
  | v => v

def patchBody (b : JBody) : Except PErr JBody :=
  match orCreateAie b with
  | .error e => .error e
  | .ok b1 => .ok (mapPropValue b1 aieName wakUpdate)

/-- Rust `s.trim().is_empty()`. -/
def isBlank (cs : List Char) : Bool := cs.all isWsChar

namespace Zed

/-- `Zed::add_extension_to_settings`, as a function of the settings file
content (`none` = the file does not exist).  A `.ok out` result means the
file is rewritten with exactly `out`; an `.error` result means the function
returned before `fs::write`, so no write occurs. -/
def add_extension_to_settings (existing : Option (List Char)) : Except PErr (List Char) :=
  let content : List Char :=
    match existing with
    | none => "{}".data
    | some s => if isBlank s then "{}".data else s
  match parseRoot content with
  | none => .error .parse
  | some r =>
    match r.value with
    | some (.obj b) =>
      match patchBody b with
      | .error e => .error e
      | .ok b2 => .ok (printRoot ⟨r.pre, some (.obj b2), r.post⟩)
    | some _ => .error .rootShape
    | none =>
      match patchBody (.nil []) with
      | .error e => .error e
      | .ok b2 => .ok (printRoot ⟨r.pre ++ ['\n'], some (.obj b2), r.post⟩)

inductive ZErr : Type where
  | noConfigDir : ZErr
  | patch : PErr → ZErr
  deriving DecidableEq

/-- `Zed::install`: resolve the per-platform config directory (an input
here; `none` models `config_dir()` returning `None`), then patch the
settings file.  No subprocess is ever spawned on this path. -/
def install (configDir : Option (List Char)) (settingsContent : Option (List Char)) :
    Except ZErr (List Char) :=
  match configDir with
  | none => .error .noConfigDir
  | some _ =>
    match add_extension_to_settings settingsContent with
    | .error e => .error (.patch e)
    | .ok out => .ok out

end Zed

/-! ## Canonical (trivia-free) rendering, for formatting-insensitive
statements -/

mutual
def canonVal : JVal → List Char
  | .raw s => s
  | .obj b => '{' :: canonBody b
  | .arr a => '[' :: canonArr a

def canonBody : JBody → List Char
  | .nil _ => ['}']
  | .cons _ key _ _ v _ _ rest =>
    key ++ ':' :: (canonVal v ++
      (match rest with | .nil _ => [] | .cons _ _ _ _ _ _ _ _ => [',']) ++ canonBody rest)

def canonArr : JArr → List Char
  | .nil _ => [']']
  | .cons _ v _ _ rest =>
    canonVal v ++
      (match rest with | .nil _ => [] | .cons _ _ _ _ _ => [',']) ++ canonArr rest
end

/-- Parse a document and render its root value without any trivia, with
normalized separators: what the document means, formatting aside. -/
def canonDoc (cs : List Char) : Option (List Char) :=
  (parseRoot cs).map fun r =>
    match r.value with
    | none => []
    | some v => canonVal v

/-! ## CLI resolution and install flows (VS Code family, JetBrains family)

The filesystem and subprocess environment is passed in explicitly: the
result of the search-path lookup, an existence predicate for fallback
paths, and the outcome of the (single) installer subprocess. -/

/-- Outcome of spawning the installer subprocess: the spawn itself failed,
or the process ran and exited with the given code (`none` models a
signal-terminated process with no exit code). -/
inductive SpawnOutcome : Type where
  | spawnErr : SpawnOutcome
  | exited : Option Int → SpawnOutcome
  deriving DecidableEq

/-- `ExitStatus::success()`: exit code zero. -/
def exitSuccess (code : Option Int) : Bool := code = some 0

namespace VsCodeFamily

/-- `VsCodeFamily::find_cli`: the `which` lookup result is authoritative;
otherwise the first fallback path that exists, in listed order. -/
def find_cli (whichResult : Option String) (existsOnDisk : String → Bool)
    (fallbacks : List String) : Option String :=
  match whichResult with
  | some p => some p
  | none => fallbacks.find? existsOnDisk

inductive VsErr : Type where
  | notFound : String → VsErr
  | spawnFailed : String → VsErr
  | exitNonZero : String → Option Int → VsErr
  deriving DecidableEq

/-- An install attempt: whether the installer subprocess was spawned, and
the result returned to the caller. -/
structure Attempt (ε : Type) where
  spawnedInstaller : Bool
  result : Except ε Unit

/-- `VsCodeFamily::install`: resolve the CLI (missing CLI is a hard
failure), then run `--install-extension WakaTime.vscode-wakatime`; success
iff the subprocess exits with status 0. -/
def install (name : String) (whichResult : Option String)
    (existsOnDisk : String → Bool) (fallbacks : List String)
    (outcome : SpawnOutcome) : Attempt VsErr :=
  match find_cli whichResult existsOnDisk fallbacks with
  | none => ⟨false, .error (.notFound name)⟩
  | some _ =>
    match outcome with
    | .spawnErr => ⟨true, .error (.spawnFailed name)⟩
    | .exited code =>
      ⟨true, if exitSuccess code then .ok () else .error (.exitNonZero name code)⟩

end VsCodeFamily

namespace JetBrainsFamily

/-- The non-Windows `which` invocation inside `JetBrainsFamily::find_cli`:
a path only when the command succeeded and its trimmed stdout is
non-empty. -/
def whichLookup (whichStatusOk : Bool) (stdoutTrimmed : String) : Option String :=
  if whichStatusOk && !stdoutTrimmed.isEmpty then some stdoutTrimmed else none

/-- `JetBrainsFamily::find_cli` (non-Windows): `which` output first,
otherwise the first known CLI path that exists, in listed order. -/
def find_cli (whichStatusOk : Bool) (stdoutTrimmed : String)
    (existsOnDisk : String → Bool) (cliPaths : List String) : Option String :=
  match whichLookup whichStatusOk stdoutTrimmed with
  | some p => some p
  | none => cliPaths.find? existsOnDisk

/-- `JetBrainsFamily::find_cli` (Windows): probing `cli --version` succeeds
(the spawn itself, regardless of exit code) first, otherwise the first
known CLI path that exists, in listed order. -/
def find_cli_windows (probeSpawnOk : Bool) (cliCommand : String)
    (existsOnDisk : String → Bool) (cliPaths : List String) : Option String :=
  if probeSpawnOk then some cliCommand else cliPaths.find? existsOnDisk

inductive JbErr : Type where
  | notFound : String → JbErr
  | spawnFailed : JbErr
  | installFailed : String → JbErr
  deriving DecidableEq

/-- `JetBrainsFamily::install` (non-Windows CLI resolution): warn (without
any effect on control flow) when the IDE is running, resolve the CLI, then
run `installPlugins com.wakatime.intellij.plugin`; success iff the
subprocess exits with status 0.  `isRunning` is accepted to record that the
advisory check does not alter the result. -/
def install (name : String) (isRunning : Bool) (whichStatusOk : Bool)
    (stdoutTrimmed : String) (existsOnDisk : String → Bool)
    (cliPaths : List String) (outcome : SpawnOutcome) : VsCodeFamily.Attempt JbErr :=
  match find_cli whichStatusOk stdoutTrimmed existsOnDisk cliPaths with
  | none => ⟨false, .error (.notFound name)⟩
  | some _ =>
    match outcome with
    | .spawnErr => ⟨true, .error .spawnFailed⟩
    | .exited code =>
      ⟨true, if exitSuccess code then .ok () else .error (.installFailed name)⟩

end JetBrainsFamily

/-- The first path in listed order that exists on disk. -/
def FirstHit (ex : String → Bool) (fb : List String) (p : String) : Prop :=
  ∃ l1 l2, fb = l1 ++ p :: l2 ∧ ex p = true ∧ ∀ q ∈ l1, ex q = false

/-! ## Well-formedness of document pieces

These predicates characterize the token and trivia texts that the parser
can produce; they are what makes a printed tree re-parse to itself. -/

/-- What may legally follow a trivia run: nothing, or a non-trivia
character. -/
def goodAfterTrivia : List Char → Prop
  | [] => True
  | c :: _ => isWsChar c = false ∧ c ≠ '/'

/-- A self-delimiting run of whitespace and comments: every line comment is
newline-terminated and every block comment is closed. -/
inductive TriviaRun : List Char → Prop where
  | nil : TriviaRun []
  | ws : ∀ c t, isWsChar c = true → TriviaRun t → TriviaRun (c :: t)
  | line : ∀ x t, (∀ ext, takeLine (x ++ ext) = (x, ext)) → TriviaRun t →
      TriviaRun ('/' :: '/' :: (x ++ t))
  | block : ∀ x t, (∀ ext, takeBlockAux false (x ++ ext) = some (x, ext)) →
      TriviaRun t → TriviaRun ('/' :: '*' :: (x ++ t))

/-- Trivia at the very end of a document: a self-delimiting run, possibly
followed by one line comment that is not newline-terminated. -/
inductive TriviaEnd : List Char → Prop where
  | run : ∀ t, TriviaRun t → TriviaEnd t
  | lax : ∀ t x, TriviaRun t → takeLine x = (x, []) →
      (∀ ext, takeLine (x ++ '\n' :: ext) = (x ++ ['\n'], ext)) →
      TriviaEnd (t ++ '/' :: '/' :: x)

/-- What may follow a scalar token without extending it. -/
def goodScalarFollow : List Char → Prop
  | [] => True
  | c :: _ => isScalarChar c = false

/-- What may follow a printed value so that re-parsing stops at its end:
only scalar tokens constrain the next character. -/
def goodV : JVal → List Char → Prop
  | .raw s, c :: _ => s.all isScalarChar = true → isScalarChar c = false
  | _, _ => True

/-- A string token body (after the opening quote, including the closing
quote) that the string scanner consumes exactly, whatever follows. -/
def StrOK (t : List Char) : Prop :=
  ∀ ext, strTailAux false (t ++ ext) = some (t, ext)

/-- A well-formed scalar token. -/
def ScalOK (s : List Char) : Prop :=
  s ≠ [] ∧ s.all isScalarChar = true ∧ validScalar s = true

mutual
inductive WFVal : JVal → Prop where
  | str : ∀ t, StrOK t → WFVal (.raw ('"' :: t))
  | scalar : ∀ s, ScalOK s → WFVal (.raw s)
  | obj : ∀ b, WFBody b → WFVal (.obj b)
  | arr : ∀ a, WFArr a → WFVal (.arr a)

inductive WFBody : JBody → Prop where
  | nil : ∀ i, TriviaRun i → WFBody (.nil i)
  | cons : ∀ pre kt pc poc v post comma rest,
      TriviaRun pre → StrOK kt → TriviaRun pc → TriviaRun poc → WFVal v →
      TriviaRun post → (comma = false → rest = .nil []) → WFBody rest →
      WFBody (.cons pre ('"' :: kt) pc poc v post comma rest)

inductive WFArr : JArr → Prop where
  | nil : ∀ i, TriviaRun i → WFArr (.nil i)
  | cons : ∀ pre v post comma rest,
      TriviaRun pre → WFVal v → TriviaRun post →
      (comma = false → rest = .nil []) → WFArr rest →
      WFArr (.cons pre v post comma rest)
end

/-! ## Property-level view of an object body, for frame statements -/

/-- One property of an object, with its surrounding trivia (the separator
comma is not part of the property). -/
structure PropD where
  pre : List Char
  key : List Char
  pc : List Char
  poc : List Char
  value : JVal
  post : List Char

def printPropD (p : PropD) : List Char :=
  p.pre ++ p.key ++ p.pc ++ ':' :: (p.poc ++ printVal p.value ++ p.post)

def propsList : JBody → List PropD
  | .nil _ => []
  | .cons pre key pc poc v post _ rest =>
    ⟨pre, key, pc, poc, v, post⟩ :: propsList rest

/-- Is this the property that the patch targets? -/
def keyIs (name : List Char) (p : PropD) : Bool :=
  decide (decodeKey p.key = some name)

/-- Replace the value of the first property named `name`, leaving all its
other components and all other properties untouched. -/
def setFirstValue (l : List PropD) (name : List Char) (nv : JVal) : List PropD :=
  match l with
  | [] => []
  | p :: rest =>
    if keyIs name p then { p with value := nv } :: rest
    else p :: setFirstValue rest name nv

/-- The top-level trivia regions of an object body. -/
def topTrivia : JBody → List (List Char)
  | .nil i => [i]
  | .cons pre _ pc poc _ post _ rest => pre :: pc :: poc :: post :: topTrivia rest

/-- `x` occurs verbatim inside `l`. -/
def InfixOf (x l : List Char) : Prop := ∃ u v, l = u ++ x ++ v

/-! ## Supporting lemmas -/

theorem PR.bind_eq_ok {α β : Type} (x : PR α) (g : α → List Char → PR β)
    (b : β) (r : List Char) :
    x.bind g = .ok b r ↔ ∃ a m, x = .ok a m ∧ g a m = .ok b r := by
  cases x with
  | out => simp [PR.bind]
  | fail => simp [PR.bind]
  | ok a m =>
    simp only [PR.bind]
    constructor
    · intro h
      exact ⟨a, m, rfl, h⟩
    · rintro ⟨a2, m2, heq, hg⟩
      injection heq with h1 h2
      rw [h1, h2]
      exact hg

theorem PR.bind_eq_out {α β : Type} (x : PR α) (g : α → List Char → PR β) :
    x.bind g = .out ↔ x = .out ∨ ∃ a m, x = .ok a m ∧ g a m = .out := by
  cases x with
  | out => simp [PR.bind]
  | fail => simp [PR.bind]
  | ok a m =>
    simp only [PR.bind]
    constructor
    · intro h
      exact .inr ⟨a, m, rfl, h⟩
    · rintro (h | ⟨a2, m2, heq, hg⟩)
      · cases h
      · injection heq with h1 h2
        rw [h1, h2]
        exact hg

/-- `find?` returns the first element of the list satisfying the predicate. -/
theorem find?_first_iff {α : Type} (p : α → Bool) (l : List α) (a : α) :
    l.find? p = some a ↔
      ∃ l1 l2, l = l1 ++ a :: l2 ∧ p a = true ∧ ∀ x ∈ l1, p x = false := by
  induction l with
  | nil => simp
  | cons c cs ih =>
    by_cases hc : p c = true
    · rw [List.find?_cons_of_pos _ hc]
      constructor
      · intro h
        injection h with h
        subst h
        exact ⟨[], cs, rfl, hc, by simp⟩
      · rintro ⟨l1, l2, hl, hpa, hfst⟩
        cases l1 with
        | nil =>
          injection hl with h1 _
          rw [h1]
        | cons x xs =>
          injection hl with h1 _
          exfalso
          have hx := hfst x (by simp)
          rw [← h1] at hx
          rw [hx] at hc
          cases hc
    · rw [List.find?_cons_of_neg _ (by simpa using hc)]
      rw [ih]
      constructor
      · rintro ⟨l1, l2, hl, hpa, hfst⟩
        refine ⟨c :: l1, l2, by rw [hl]; rfl, hpa, ?_⟩
        intro x hx
        rcases List.mem_cons.mp hx with h | h
        · subst h; simpa using hc
        · exact hfst x h
      · rintro ⟨l1, l2, hl, hpa, hfst⟩
        cases l1 with
        | nil =>
          injection hl with h1 _
          rw [h1] at hc
          exact absurd hpa hc
        | cons x xs =>
          injection hl with _ h2
          exact ⟨xs, l2, h2, hpa, fun y hy => hfst y (by simp [hy])⟩

theorem takeLine_consumed (cs : List Char) : (takeLine cs).1 ++ (takeLine cs).2 = cs := by
  induction cs with
  | nil => rfl
  | cons c cs ih =>
    by_cases h : c = '\n'
    · simp [takeLine, h]
    · simp [takeLine, h]
      exact ih

theorem takeBlockAux_consumed :
    ∀ (cs : List Char) (fl : Bool) (a b : List Char),
      takeBlockAux fl cs = some (a, b) → a ++ b = cs := by
  intro cs
  induction cs with
  | nil => intro fl a b h; cases h
  | cons c cs ih =>
    intro fl a b h
    simp only [takeBlockAux] at h
    split at h
    · injection h with h
      injection h with h1 h2
      rw [← h1, ← h2]
      rfl
    · cases hm : takeBlockAux (c = '*') cs with
      | none => rw [hm] at h; cases h
      | some p =>
        rw [hm] at h
        simp only [Option.map_some'] at h
        injection h with h
        injection h with h1 h2
        rw [← h1, ← h2]
        have hp := ih (c = '*') p.1 p.2 (by rw [hm])
        simp [hp]

theorem strTailAux_consumed :
    ∀ (cs : List Char) (fl : Bool) (a b : List Char),
      strTailAux fl cs = some (a, b) → a ++ b = cs := by
  intro cs
  induction cs with
  | nil => intro fl a b h; simp [strTailAux] at h
  | cons c cs ih =>
    intro fl a b h
    cases fl with
    | true =>
      simp only [strTailAux] at h
      cases hm : strTailAux false cs with
      | none => rw [hm] at h; cases h
      | some p =>
        rw [hm] at h
        simp only [Option.map_some'] at h
        injection h with h
        injection h with h1 h2
        rw [← h1, ← h2]
        have hp := ih false p.1 p.2 (by rw [hm])
        simp [hp]
    | false =>
      simp only [strTailAux] at h
      split at h
      · injection h with h
        injection h with h1 h2
        rw [← h1, ← h2]
        rfl
      · split at h
        · cases hm : strTailAux true cs with
          | none => rw [hm] at h; cases h
          | some p =>
            rw [hm] at h
            simp only [Option.map_some'] at h
            injection h with h
            injection h with h1 h2
            rw [← h1, ← h2]
            have hp := ih true p.1 p.2 (by rw [hm])
            simp [hp]
        · split at h
          · cases h
          · cases hm : strTailAux false cs with
            | none => rw [hm] at h; cases h
            | some p =>
              rw [hm] at h
              simp only [Option.map_some'] at h
              injection h with h
              injection h with h1 h2
              rw [← h1, ← h2]
              have hp := ih false p.1 p.2 (by rw [hm])
              simp [hp]

theorem takeScalar_consumed (cs : List Char) :
    (takeScalar cs).1 ++ (takeScalar cs).2 = cs := by
  induction cs with
  | nil => rfl
  | cons c cs ih =>
    by_cases h : isScalarChar c = true
    · simp [takeScalar, h]
      exact ih
    · simp [takeScalar, h]

theorem takeScalar_all (cs : List Char) :
    (takeScalar cs).1.all isScalarChar = true := by
  induction cs with
  | nil => rfl
  | cons c cs ih =>
    by_cases h : isScalarChar c = true
    · simp [takeScalar, h]
      simpa using ih
    · simp [takeScalar, h]

theorem skipT_consumed :
    ∀ (f : Nat) (cs t r : List Char), skipT f cs = .ok t r → t ++ r = cs := by
  intro f
  induction f with
  | zero => intro cs t r h; cases h
  | succ f ih =>
    intro cs t r h
    cases cs with
    | nil =>
      simp only [skipT] at h
      injection h with h1 h2
      rw [← h1, ← h2]
      rfl
    | cons c cs =>
      simp only [skipT] at h
      split at h
      · rw [PR.bind_eq_ok] at h
        obtain ⟨t2, r2, hk, hg⟩ := h
        injection hg with h1 h2
        rw [← h1, ← h2]
        have h3 := ih cs t2 r2 hk
        simp [h3]
      · split at h
        · -- c = '/' branch
          rename_i hc
          split at h
          · -- cs = []
            injection h with h1 h2
            rw [← h1, ← h2]
            rfl
          · rename_i c2 cs2
            split at h
            · -- line comment
              rename_i hc2
              rw [PR.bind_eq_ok] at h
              obtain ⟨t2, r2, hk, hg⟩ := h
              injection hg with h1 h2
              rw [← h1, ← h2]
              have h3 := ih _ t2 r2 hk
              have h4 := takeLine_consumed cs2
              subst hc hc2
              simp only [List.cons_append, List.append_assoc, h3, h4]
            · split at h
              · -- block comment
                rename_i hc2
                split at h
                · cases h
                · rename_i q hq
                  rw [PR.bind_eq_ok] at h
                  obtain ⟨t2, r2, hk, hg⟩ := h
                  injection hg with h1 h2
                  rw [← h1, ← h2]
                  have h3 := ih _ t2 r2 hk
                  have h4 := takeBlockAux_consumed cs2 false q.1 q.2 (by rw [hq])
                  subst hc hc2
                  simp only [List.cons_append, List.append_assoc, h3, h4]
              · injection h with h1 h2
                rw [← h1, ← h2]
                rfl
        · injection h with h1 h2
          rw [← h1, ← h2]
          rfl

set_option maxHeartbeats 1600000 in
theorem parseValueF_zero (cs : List Char) : parseValueF 0 cs = .out := by
  rw [parseValueF.eq_def]

set_option maxHeartbeats 1600000 in
theorem parseBodyF_zero (cs : List Char) : parseBodyF 0 cs = .out := by
  rw [parseBodyF.eq_def]

set_option maxHeartbeats 1600000 in
theorem parseArrF_zero (cs : List Char) : parseArrF 0 cs = .out := by
  rw [parseArrF.eq_def]

set_option maxHeartbeats 1600000 in
theorem parseValueF_succ (f : Nat) (cs : List Char) :
    parseValueF (f + 1) cs =
      (match cs with
      | [] => .fail
      | '{' :: r => (parseBodyF f r).bind fun b r2 => .ok (.obj b) r2
      | '[' :: r => (parseArrF f r).bind fun a r2 => .ok (.arr a) r2
      | '"' :: r => (liftO (strTail r)).bind fun t r2 => .ok (.raw ('"' :: t)) r2
      | c :: r =>
        if !(takeScalar (c :: r)).1.isEmpty && validScalar (takeScalar (c :: r)).1 then
          .ok (.raw (takeScalar (c :: r)).1) (takeScalar (c :: r)).2
        else .fail) := by
  rw [parseValueF.eq_def]

set_option maxHeartbeats 1600000 in
theorem parseBodyF_succ (f : Nat) (cs : List Char) :
    parseBodyF (f + 1) cs =
      ((skipTriviaW cs).bind fun pre r1 =>
      match r1 with
      | '}' :: r2 => .ok (.nil pre) r2
      | '"' :: r2 =>
        (liftO (strTail r2)).bind fun kt r3 =>
        (skipTriviaW r3).bind fun pc r4 =>
        match r4 with
        | ':' :: r5 =>
          (skipTriviaW r5).bind fun poc r6 =>
          (parseValueF f r6).bind fun v r7 =>
          (skipTriviaW r7).bind fun post r8 =>
          match r8 with
          | ',' :: r9 =>
            (parseBodyF f r9).bind fun rest r10 =>
              .ok (.cons pre ('"' :: kt) pc poc v post true rest) r10
          | '}' :: r9 => .ok (.cons pre ('"' :: kt) pc poc v post false (.nil [])) r9
          | _ => .fail
        | _ => .fail
      | _ => .fail) := by
  rw [parseBodyF.eq_def]

set_option maxHeartbeats 1600000 in
theorem parseArrF_succ (f : Nat) (cs : List Char) :
    parseArrF (f + 1) cs =
      ((skipTriviaW cs).bind fun pre r1 =>
      match r1 with
      | ']' :: r2 => .ok (.nil pre) r2
      | _ =>
        (parseValueF f r1).bind fun v r2 =>
        (skipTriviaW r2).bind fun post r3 =>
        match r3 with
        | ',' :: r4 =>
          (parseArrF f r4).bind fun rest r5 => .ok (.cons pre v post true rest) r5
        | ']' :: r4 => .ok (.cons pre v post false (.nil [])) r4
        | _ => .fail) := by
  rw [parseArrF.eq_def]

theorem liftO_eq_ok (o : Option (List Char × List Char)) (a m : List Char) :
    liftO o = .ok a m ↔ o = some (a, m) := by
  cases o with
  | none => simp [liftO]
  | some p =>
    simp only [liftO]
    constructor
    · intro h
      injection h with h1 h2
      rw [← h1, ← h2]
    · intro h
      injection h with h
      rw [h]

/-- The parser consumes exactly the printed text of what it returns: the
printer is a left inverse of the parser. -/
theorem parse_consumed (f : Nat) :
    (∀ cs v r, parseValueF f cs = .ok v r → printVal v ++ r = cs ∧ printVal v ≠ []) ∧
    (∀ cs b r, parseBodyF f cs = .ok b r → printBody b ++ r = cs) ∧
    (∀ cs a r, parseArrF f cs = .ok a r → printArr a ++ r = cs) := by
  induction f with
  | zero =>
    refine ⟨?_, ?_, ?_⟩
    · intro cs v r h; rw [parseValueF_zero] at h; cases h
    · intro cs b r h; rw [parseBodyF_zero] at h; cases h
    · intro cs a r h; rw [parseArrF_zero] at h; cases h
  | succ f ih =>
    obtain ⟨ihv, ihb, iha⟩ := ih
    refine ⟨?_, ?_, ?_⟩
    · intro cs v r h
      rw [parseValueF_succ] at h
      split at h
      · cases h
      · -- '{' :: r0
        rename_i r0
        rw [PR.bind_eq_ok] at h
        obtain ⟨b, r2, hb, h⟩ := h
        injection h with h1 h2
        rw [← h1, ← h2]
        have h3 := ihb r0 b r2 hb
        constructor
        · simp only [printVal, List.cons_append, h3]
        · simp [printVal]
      · -- '[' :: r0
        rename_i r0
        rw [PR.bind_eq_ok] at h
        obtain ⟨a, r2, ha, h⟩ := h
        injection h with h1 h2
        rw [← h1, ← h2]
        have h3 := iha r0 a r2 ha
        constructor
        · simp only [printVal, List.cons_append, h3]
        · simp [printVal]
      · -- '"' :: r0
        rename_i r0
        rw [PR.bind_eq_ok] at h
        obtain ⟨t, r2, ht, h⟩ := h
        rw [liftO_eq_ok] at ht
        injection h with h1 h2
        rw [← h1, ← h2]
        have h3 := strTailAux_consumed r0 false t r2 ht
        constructor
        · simp only [printVal, List.cons_append, h3]
        · simp [printVal]
      · -- scalar
        rename_i c r0 hne1 hne2 hne3
        split at h
        · injection h with h1 h2
          rw [← h1, ← h2]
          constructor
          · simp only [printVal]
            exact takeScalar_consumed (c :: r0)
          · rename_i hcond
            simp only [printVal]
            intro hemp
            rw [hemp] at hcond
            simp at hcond
        · cases h
    · intro cs b r h
      rw [parseBodyF_succ] at h
      rw [PR.bind_eq_ok] at h
      obtain ⟨pre, r1, hskip, h⟩ := h
      have hc0 := skipT_consumed _ cs pre r1 hskip
      split at h
      · -- '}' :: r2
        rename_i r2
        injection h with h1 h2
        rw [← h1, ← h2]
        simp only [printBody, ← hc0]
        simp
      · -- '"' :: r2 : a property
        rename_i r2
        rw [PR.bind_eq_ok] at h
        obtain ⟨kt, r3, hstr, h⟩ := h
        rw [liftO_eq_ok] at hstr
        have hc1 := strTailAux_consumed r2 false kt r3 hstr
        rw [PR.bind_eq_ok] at h
        obtain ⟨pc, r4, hskip2, h⟩ := h
        have hc2 := skipT_consumed _ r3 pc r4 hskip2
        split at h
        · -- ':' :: r5
          rename_i r5
          rw [PR.bind_eq_ok] at h
          obtain ⟨poc, r6, hskip3, h⟩ := h
          have hc3 := skipT_consumed _ r5 poc r6 hskip3
          rw [PR.bind_eq_ok] at h
          obtain ⟨v, r7, hval, h⟩ := h
          have hc4 := (ihv r6 v r7 hval).1
          rw [PR.bind_eq_ok] at h
          obtain ⟨post, r8, hskip4, h⟩ := h
          have hc5 := skipT_consumed _ r7 post r8 hskip4
          split at h
          · -- ',' :: r9
            rename_i r9
            rw [PR.bind_eq_ok] at h
            obtain ⟨rest, r10, hrest, h⟩ := h
            have hc6 := ihb r9 rest r10 hrest
            injection h with h1 h2
            rw [← h1, ← h2]
            simp only [printBody, ← hc0, ← hc1, ← hc2, ← hc3, ← hc4, ← hc5, ← hc6,
              if_true, List.cons_append, List.append_assoc, List.nil_append]
          · -- '}' :: r9
            rename_i r9
            injection h with h1 h2
            rw [← h1, ← h2]
            simp only [printBody, ← hc0, ← hc1, ← hc2, ← hc3, ← hc4, ← hc5,
              List.cons_append, List.append_assoc]
            simp
          · cases h
        · cases h
      · cases h
    · intro cs a r h
      rw [parseArrF_succ] at h
      rw [PR.bind_eq_ok] at h
      obtain ⟨pre, r1, hskip, h⟩ := h
      have hc0 := skipT_consumed _ cs pre r1 hskip
      split at h
      · -- ']' :: r2
        rename_i r2
        injection h with h1 h2
        rw [← h1, ← h2]
        simp only [printArr, ← hc0]
        simp
      · -- a value
        rw [PR.bind_eq_ok] at h
        obtain ⟨v, r2, hval, h⟩ := h
        have hc1 := (ihv r1 v r2 hval).1
        rw [PR.bind_eq_ok] at h
        obtain ⟨post, r3, hskip2, h⟩ := h
        have hc2 := skipT_consumed _ r2 post r3 hskip2
        split at h
        · -- ',' :: r4
          rename_i r4
          rw [PR.bind_eq_ok] at h
          obtain ⟨rest, r5, hrest, h⟩ := h
          have hc3 := iha r4 rest r5 hrest
          injection h with h1 h2
          rw [← h1, ← h2]
          simp only [printArr, ← hc0, ← hc1, ← hc2, ← hc3, if_true,
            List.cons_append, List.append_assoc, List.nil_append]
        · -- ']' :: r4
          rename_i r4
          injection h with h1 h2
          rw [← h1, ← h2]
          simp only [printArr, ← hc0, ← hc1, ← hc2, List.cons_append,
            List.append_assoc]
          simp
        · cases h

/-- A whitespace-only document parses to a root with no value. -/
theorem skipT_blank (cs : List Char) (h : cs.all isWsChar = true) :
    skipT (cs.length + 1) cs = .ok cs [] := by
  induction cs with
  | nil => rfl
  | cons c cs ih =>
    simp only [List.all_cons, Bool.and_eq_true] at h
    simp only [skipT, List.length_cons, h.1, if_pos]
    rw [ih h.2]
    rfl

theorem parseRoot_blank (cs : List Char) (h : cs.all isWsChar = true) :
    parseRoot cs = some ⟨cs, none, []⟩ := by
  simp only [parseRoot, skipTriviaW, skipT_blank cs h, PR.bind]

/-- What a line-comment scan consumes either re-scans exactly (it ends in a
newline) or runs to the end of input and a newline can be appended. -/
theorem takeLine_split (cs : List Char) :
    (∀ ext, takeLine ((takeLine cs).1 ++ ext) = ((takeLine cs).1, ext)) ∨
    ((takeLine cs).2 = [] ∧ takeLine (takeLine cs).1 = ((takeLine cs).1, []) ∧
      ∀ ext, takeLine ((takeLine cs).1 ++ '\n' :: ext) = ((takeLine cs).1 ++ ['\n'], ext)) := by
  induction cs with
  | nil =>
    right
    refine ⟨rfl, rfl, fun ext => ?_⟩
    simp [takeLine]
  | cons c cs ih =>
    by_cases hc : c = '\n'
    · left
      intro ext
      subst hc
      simp [takeLine]
    · have hred : takeLine (c :: cs) = (c :: (takeLine cs).1, (takeLine cs).2) := by
        simp [takeLine, hc]
      rw [hred]
      rcases ih with hL | ⟨h1, h2, h3⟩
      · left
        intro ext
        simp only [List.cons_append]
        simp [takeLine, hc, hL ext]
      · right
        refine ⟨h1, ?_, fun ext => ?_⟩
        · simp [takeLine, hc, h2]
        · simp only [List.cons_append]
          simp [takeLine, hc, h3 ext]

theorem takeBlockAux_extend :
    ∀ (cs : List Char) (fl : Bool) (a b : List Char),
      takeBlockAux fl cs = some (a, b) →
      ∀ ext, takeBlockAux fl (a ++ ext) = some (a, ext) := by
  intro cs
  induction cs with
  | nil => intro fl a b h; cases h
  | cons c cs ih =>
    intro fl a b h ext
    simp only [takeBlockAux] at h
    split at h
    · rename_i hs
      injection h with h
      injection h with h1 h2
      subst h1
      simp [takeBlockAux, hs]
    · rename_i hs
      cases hm : takeBlockAux (c = '*') cs with
      | none => rw [hm] at h; cases h
      | some p =>
        rw [hm] at h
        simp only [Option.map_some'] at h
        injection h with h
        injection h with h1 h2
        subst h1
        have hp := ih (c = '*') p.1 p.2 (by rw [hm]) ext
        simp [takeBlockAux, hs, hp]

theorem strTailAux_extend :
    ∀ (cs : List Char) (fl : Bool) (a b : List Char),
      strTailAux fl cs = some (a, b) →
      ∀ ext, strTailAux fl (a ++ ext) = some (a, ext) := by
  intro cs
  induction cs with
  | nil => intro fl a b h; simp [strTailAux] at h
  | cons c cs ih =>
    intro fl a b h ext
    cases fl with
    | true =>
      simp only [strTailAux] at h
      cases hm : strTailAux false cs with
      | none => rw [hm] at h; cases h
      | some p =>
        rw [hm] at h
        simp only [Option.map_some'] at h
        injection h with h
        injection h with h1 h2
        subst h1
        have hp := ih false p.1 p.2 (by rw [hm]) ext
        simp [strTailAux, hp]
    | false =>
      simp only [strTailAux] at h
      split at h
      · rename_i hq
        injection h with h
        injection h with h1 h2
        subst h1 hq
        simp [strTailAux]
      · rename_i hq
        split at h
        · rename_i hbs
          cases hm : strTailAux true cs with
          | none => rw [hm] at h; cases h
          | some p =>
            rw [hm] at h
            simp only [Option.map_some'] at h
            injection h with h
            injection h with h1 h2
            subst h1 hbs
            have hp := ih true p.1 p.2 (by rw [hm]) ext
            simp [strTailAux, hp]
        · rename_i hbs
          split at h
          · cases h
          · rename_i hnl
            cases hm : strTailAux false cs with
            | none => rw [hm] at h; cases h
            | some p =>
              rw [hm] at h
              simp only [Option.map_some'] at h
              injection h with h
              injection h with h1 h2
              subst h1
              have hp := ih false p.1 p.2 (by rw [hm]) ext
              simp [strTailAux, hq, hbs, hnl, hp]

theorem takeScalar_extend :
    ∀ (s : List Char), s.all isScalarChar = true → ∀ ext, goodScalarFollow ext →
      takeScalar (s ++ ext) = (s, ext) := by
  intro s
  induction s with
  | nil =>
    intro _ ext hext
    cases ext with
    | nil => rfl
    | cons c r =>
      simp only [goodScalarFollow] at hext
      simp [takeScalar, hext]
  | cons c s ih =>
    intro hall ext hext
    simp only [List.all_cons, Bool.and_eq_true] at hall
    simp [takeScalar, hall.1, ih hall.2 ext hext]

theorem skipT_nil_res (f : Nat) : skipT f [] = .out ∨ skipT f [] = .ok [] [] := by
  cases f with
  | zero => left; rfl
  | succ f => right; rfl

theorem skipT_nil_ok (f : Nat) (t r : List Char) (h : skipT f [] = .ok t r) :
    t = [] ∧ r = [] := by
  cases f with
  | zero => cases h
  | succ f =>
    simp only [skipT] at h
    injection h with h1 h2
    exact ⟨h1.symm, h2.symm⟩

theorem skipT_stop (ext : List Char) (hext : goodAfterTrivia ext) (f : Nat) :
    skipT f ext = .out ∨ skipT f ext = .ok [] ext := by
  cases f with
  | zero => left; rfl
  | succ f =>
    cases ext with
    | nil => right; rfl
    | cons c r =>
      obtain ⟨h1, h2⟩ := hext
      right
      simp [skipT, h1, h2]

/-- A trivia run composes on the left with any continued scan. -/
theorem TriviaRun_parse_prefix {t : List Char} (ht : TriviaRun t) :
    ∀ (ext u rr : List Char),
      (∀ f, skipT f ext = .out ∨ skipT f ext = .ok u rr) →
      ∀ f, skipT f (t ++ ext) = .out ∨ skipT f (t ++ ext) = .ok (t ++ u) rr := by
  induction ht with
  | nil =>
    intro ext u rr hc f
    simpa using hc f
  | ws c t hw ht ih =>
    intro ext u rr hc f
    cases f with
    | zero => left; rfl
    | succ f =>
      simp only [List.cons_append, skipT, hw, if_true, List.append_eq]
      rcases ih ext u rr hc f with h | h
      · left
        rw [h]
        rfl
      · right
        rw [h]
        rfl
  | line x t hx ht ih =>
    intro ext u rr hc f
    cases f with
    | zero => left; rfl
    | succ f =>
      have hre : ('/' :: '/' :: (x ++ t)) ++ ext = '/' :: '/' :: (x ++ (t ++ ext)) := by
        simp
      rw [hre]
      have hws : isWsChar '/' = false := by decide
      simp only [skipT, hws, Bool.false_eq_true, if_false, if_pos rfl, hx (t ++ ext)]
      rcases ih ext u rr hc f with h | h
      · left
        rw [h]
        rfl
      · right
        rw [h]
        simp [PR.bind]
  | block x t hx ht ih =>
    intro ext u rr hc f
    cases f with
    | zero => left; rfl
    | succ f =>
      have hre : ('/' :: '*' :: (x ++ t)) ++ ext = '/' :: '*' :: (x ++ (t ++ ext)) := by
        simp
      rw [hre]
      have hws : isWsChar '/' = false := by decide
      have hns : ('*' : Char) ≠ '/' := by decide
      simp only [skipT, hws, Bool.false_eq_true, if_false, if_pos rfl, if_neg hns,
        hx (t ++ ext)]
      rcases ih ext u rr hc f with h | h
      · left
        rw [h]
        rfl
      · right
        rw [h]
        simp [PR.bind]

theorem TriviaRun_reparse {t : List Char} (ht : TriviaRun t) (ext : List Char)
    (hext : goodAfterTrivia ext) (f : Nat) :
    skipT f (t ++ ext) = .out ∨ skipT f (t ++ ext) = .ok t ext := by
  have := TriviaRun_parse_prefix ht ext [] ext (skipT_stop ext hext) f
  simpa using this

theorem TriviaEnd_reparse {t : List Char} (ht : TriviaEnd t) (f : Nat) :
    skipT f t = .out ∨ skipT f t = .ok t [] := by
  cases ht with
  | run t hr =>
    have := TriviaRun_reparse hr [] trivial f
    simpa using this
  | lax t x hr hline hP =>
    have hc : ∀ g, skipT g ('/' :: '/' :: x) = .out ∨
        skipT g ('/' :: '/' :: x) = .ok ('/' :: '/' :: x) [] := by
      intro g
      cases g with
      | zero => left; rfl
      | succ g =>
        have hws : isWsChar '/' = false := by decide
        simp only [skipT, hws, Bool.false_eq_true, if_false, if_pos rfl, hline]
        rcases skipT_nil_res g with h | h
        · left
          rw [h]
          rfl
        · right
          rw [h]
          simp [PR.bind]
    have := TriviaRun_parse_prefix hr ('/' :: '/' :: x) ('/' :: '/' :: x) [] hc f
    simpa using this

theorem TriviaRun_append {a : List Char} (ha : TriviaRun a) {b : List Char}
    (hb : TriviaRun b) : TriviaRun (a ++ b) := by
  induction ha with
  | nil => simpa using hb
  | ws c t hw _ ih => exact .ws c (t ++ b) hw ih
  | line x t hx _ ih =>
    have he : ('/' :: '/' :: (x ++ t)) ++ b = '/' :: '/' :: (x ++ (t ++ b)) := by simp
    rw [he]
    exact .line x (t ++ b) hx ih
  | block x t hx _ ih =>
    have he : ('/' :: '*' :: (x ++ t)) ++ b = '/' :: '*' :: (x ++ (t ++ b)) := by simp
    rw [he]
    exact .block x (t ++ b) hx ih

theorem TriviaEnd_ws_cons {c : Char} (hw : isWsChar c = true) {t : List Char}
    (ht : TriviaEnd t) : TriviaEnd (c :: t) := by
  cases ht with
  | run t hr => exact .run _ (.ws c t hw hr)
  | lax t x hr h1 h2 => exact .lax (c :: t) x (.ws c t hw hr) h1 h2

theorem TriviaEnd_line_cons {x : List Char}
    (hx : ∀ ext, takeLine (x ++ ext) = (x, ext)) {t : List Char} (ht : TriviaEnd t) :
    TriviaEnd ('/' :: '/' :: (x ++ t)) := by
  cases ht with
  | run t hr => exact .run _ (.line x t hx hr)
  | lax t y hr h1 h2 =>
    have he : '/' :: '/' :: (x ++ (t ++ '/' :: '/' :: y)) =
        ('/' :: '/' :: (x ++ t)) ++ '/' :: '/' :: y := by simp
    rw [he]
    exact .lax _ y (.line x t hx hr) h1 h2

theorem TriviaEnd_block_cons {x : List Char}
    (hx : ∀ ext, takeBlockAux false (x ++ ext) = some (x, ext)) {t : List Char}
    (ht : TriviaEnd t) : TriviaEnd ('/' :: '*' :: (x ++ t)) := by
  cases ht with
  | run t hr => exact .run _ (.block x t hx hr)
  | lax t y hr h1 h2 =>
    have he : '/' :: '*' :: (x ++ (t ++ '/' :: '/' :: y)) =
        ('/' :: '*' :: (x ++ t)) ++ '/' :: '/' :: y := by simp
    rw [he]
    exact .lax _ y (.block x t hx hr) h1 h2

/-- Appending a newline turns end-of-document trivia into a self-delimiting
run. -/
theorem TriviaEnd_newline {t : List Char} (ht : TriviaEnd t) :
    TriviaRun (t ++ ['\n']) := by
  cases ht with
  | run t hr => exact TriviaRun_append hr (.ws '\n' [] (by decide) .nil)
  | lax t x hr h1 h2 =>
    have he : (t ++ '/' :: '/' :: x) ++ ['\n'] =
        t ++ ('/' :: '/' :: ((x ++ ['\n']) ++ [])) := by simp
    rw [he]
    refine TriviaRun_append hr (.line (x ++ ['\n']) [] ?_ .nil)
    intro ext
    have h3 := h2 ext
    rw [List.append_assoc]
    simpa using h3

theorem TriviaRun_head {s : List Char} (h : TriviaRun s) :
    ∀ c t, s = c :: t → isWsChar c = true ∨ c = '/' := by
  cases h with
  | nil => intro c t h; cases h
  | ws c2 t2 hw _ =>
    intro c t h
    injection h with h1 _
    rw [← h1]
    exact .inl hw
  | line x t2 _ _ =>
    intro c t h
    injection h with h1 _
    rw [← h1]
    exact .inr rfl
  | block x t2 _ _ =>
    intro c t h
    injection h with h1 _
    rw [← h1]
    exact .inr rfl

theorem TriviaEnd_head {s : List Char} (h : TriviaEnd s) :
    ∀ c t, s = c :: t → isWsChar c = true ∨ c = '/' := by
  cases h with
  | run _ hr => exact TriviaRun_head hr
  | lax t2 x hr h1 h2 =>
    intro c t h
    cases t2 with
    | nil =>
      injection h with hc _
      rw [← hc]
      exact .inr rfl
    | cons d t3 =>
      injection h with hc _
      rw [← hc]
      exact TriviaRun_head hr d t3 rfl

/-- Classify a trivia scan: consumed text followed by more input is a
self-delimiting run; consumed text at the end of input is end trivia. -/
theorem skipT_classify :
    ∀ (f : Nat) (cs t r : List Char), skipT f cs = .ok t r →
      (r ≠ [] → TriviaRun t) ∧ (r = [] → TriviaEnd t) := by
  intro f
  induction f with
  | zero => intro cs t r h; cases h
  | succ f ih =>
    intro cs t r h
    cases cs with
    | nil =>
      simp only [skipT] at h
      injection h with h1 h2
      subst h1 h2
      exact ⟨fun hr => absurd rfl hr, fun _ => .run _ .nil⟩
    | cons c cs2 =>
      simp only [skipT] at h
      split at h
      · rename_i hw
        rw [PR.bind_eq_ok] at h
        obtain ⟨t2, r2, hk, hg⟩ := h
        injection hg with h1 h2
        subst h1 h2
        obtain ⟨hA, hB⟩ := ih cs2 t2 r2 hk
        exact ⟨fun hr => .ws c t2 hw (hA hr), fun hr => TriviaEnd_ws_cons hw (hB hr)⟩
      · rename_i hnw
        split at h
        · rename_i hc
          split at h
          · injection h with h1 h2
            subst h1 h2
            exact ⟨fun _ => .nil, fun hr => by cases hr⟩
          · rename_i c2 cs3
            split at h
            · rename_i hc2
              rw [PR.bind_eq_ok] at h
              obtain ⟨t2, r2, hk, hg⟩ := h
              injection hg with h1 h2
              subst h1 h2
              obtain ⟨hA, hB⟩ := ih _ t2 r2 hk
              subst hc hc2
              rcases takeLine_split cs3 with hL | ⟨hE1, hE2, hE3⟩
              · exact ⟨fun hr => .line _ t2 hL (hA hr),
                  fun hr => TriviaEnd_line_cons hL (hB hr)⟩
              · rw [hE1] at hk
                obtain ⟨ht2, hr2⟩ := skipT_nil_ok f t2 r2 hk
                subst ht2 hr2
                constructor
                · intro hr
                  exact absurd rfl hr
                · intro _
                  have he : '/' :: '/' :: ((takeLine cs3).1 ++ []) =
                      [] ++ '/' :: '/' :: (takeLine cs3).1 := by simp
                  rw [he]
                  exact .lax [] _ .nil hE2 hE3
            · split at h
              · rename_i hc2
                split at h
                · cases h
                · rename_i q hq
                  rw [PR.bind_eq_ok] at h
                  obtain ⟨t2, r2, hk, hg⟩ := h
                  injection hg with h1 h2
                  subst h1 h2
                  obtain ⟨hA, hB⟩ := ih _ t2 r2 hk
                  subst hc hc2
                  have hX := takeBlockAux_extend cs3 false q.1 q.2 (by rw [hq])
                  exact ⟨fun hr => .block _ t2 hX (hA hr),
                    fun hr => TriviaEnd_block_cons hX (hB hr)⟩
              · injection h with h1 h2
                subst h1 h2
                exact ⟨fun _ => .nil, fun hr => by cases hr⟩
        · injection h with h1 h2
          subst h1 h2
          exact ⟨fun _ => .nil, fun hr => by cases hr⟩

theorem parseValueF_nil (f : Nat) (v : JVal) (r : List Char) :
    parseValueF f [] ≠ .ok v r := by
  cases f with
  | zero =>
    rw [parseValueF_zero]
    intro h
    cases h
  | succ f =>
    rw [parseValueF_succ]
    intro h
    cases h

/-- Everything the parser returns is well-formed. -/
theorem parse_wf (f : Nat) :
    (∀ cs v r, parseValueF f cs = .ok v r → WFVal v) ∧
    (∀ cs b r, parseBodyF f cs = .ok b r → WFBody b) ∧
    (∀ cs a r, parseArrF f cs = .ok a r → WFArr a) := by
  induction f with
  | zero =>
    refine ⟨?_, ?_, ?_⟩
    · intro cs v r h; rw [parseValueF_zero] at h; cases h
    · intro cs b r h; rw [parseBodyF_zero] at h; cases h
    · intro cs a r h; rw [parseArrF_zero] at h; cases h
  | succ f ih =>
    obtain ⟨ihv, ihb, iha⟩ := ih
    refine ⟨?_, ?_, ?_⟩
    · intro cs v r h
      rw [parseValueF_succ] at h
      split at h
      · cases h
      · rename_i r0
        rw [PR.bind_eq_ok] at h
        obtain ⟨b, r2, hb, h⟩ := h
        injection h with h1 h2
        subst h1
        exact .obj b (ihb r0 b r2 hb)
      · rename_i r0
        rw [PR.bind_eq_ok] at h
        obtain ⟨a, r2, ha, h⟩ := h
        injection h with h1 h2
        subst h1
        exact .arr a (iha r0 a r2 ha)
      · rename_i r0
        rw [PR.bind_eq_ok] at h
        obtain ⟨t, r2, ht, h⟩ := h
        rw [liftO_eq_ok] at ht
        injection h with h1 h2
        subst h1
        exact .str t (strTailAux_extend r0 false t r2 ht)
      · rename_i c r0 hne1 hne2 hne3
        split at h
        · rename_i hcond
          injection h with h1 h2
          subst h1
          rw [Bool.and_eq_true] at hcond
          refine .scalar _ ⟨?_, takeScalar_all (c :: r0), hcond.2⟩
          intro hEmp
          rw [hEmp] at hcond
          simp at hcond
        · cases h
    · intro cs b r h
      rw [parseBodyF_succ] at h
      rw [PR.bind_eq_ok] at h
      obtain ⟨pre, r1, hskip, h⟩ := h
      split at h
      · rename_i r2
        injection h with h1 h2
        subst h1
        exact .nil pre ((skipT_classify _ cs pre _ hskip).1 (by simp))
      · rename_i r2
        rw [PR.bind_eq_ok] at h
        obtain ⟨kt, r3, hstr, h⟩ := h
        rw [liftO_eq_ok] at hstr
        rw [PR.bind_eq_ok] at h
        obtain ⟨pc, r4, hskip2, h⟩ := h
        split at h
        · rename_i r5
          rw [PR.bind_eq_ok] at h
          obtain ⟨poc, r6, hskip3, h⟩ := h
          rw [PR.bind_eq_ok] at h
          obtain ⟨v, r7, hval, h⟩ := h
          rw [PR.bind_eq_ok] at h
          obtain ⟨post, r8, hskip4, h⟩ := h
          have hpre : TriviaRun pre := (skipT_classify _ cs pre _ hskip).1 (by simp)
          have hkt : StrOK kt := strTailAux_extend r2 false kt r3 hstr
          have hpc : TriviaRun pc := (skipT_classify _ r3 pc _ hskip2).1 (by simp)
          have hr6ne : r6 ≠ [] := by
            intro hnil
            rw [hnil] at hval
            exact parseValueF_nil f v r7 hval
          have hpoc : TriviaRun poc := (skipT_classify _ r5 poc r6 hskip3).1 hr6ne
          have hv : WFVal v := ihv r6 v r7 hval
          split at h
          · rename_i r9
            rw [PR.bind_eq_ok] at h
            obtain ⟨rest, r10, hrest, h⟩ := h
            injection h with h1 h2
            subst h1
            have hpost : TriviaRun post := (skipT_classify _ r7 post _ hskip4).1 (by simp)
            exact .cons pre kt pc poc v post true rest hpre hkt hpc hpoc hv hpost
              (by intro hcf; cases hcf) (ihb r9 rest r10 hrest)
          · rename_i r9
            injection h with h1 h2
            subst h1
            have hpost : TriviaRun post := (skipT_classify _ r7 post _ hskip4).1 (by simp)
            exact .cons pre kt pc poc v post false (.nil []) hpre hkt hpc hpoc hv hpost
              (fun _ => rfl) (.nil [] .nil)
          · cases h
        · cases h
      · cases h
    · intro cs a r h
      rw [parseArrF_succ] at h
      rw [PR.bind_eq_ok] at h
      obtain ⟨pre, r1, hskip, h⟩ := h
      split at h
      · rename_i r2
        injection h with h1 h2
        subst h1
        exact .nil pre ((skipT_classify _ cs pre _ hskip).1 (by simp))
      · rw [PR.bind_eq_ok] at h
        obtain ⟨v, r2, hval, h⟩ := h
        rw [PR.bind_eq_ok] at h
        obtain ⟨post, r3, hskip2, h⟩ := h
        have hr1ne : r1 ≠ [] := by
          intro hnil
          rw [hnil] at hval
          exact parseValueF_nil f v r2 hval
        have hpre : TriviaRun pre := (skipT_classify _ cs pre r1 hskip).1 hr1ne
        have hv : WFVal v := ihv r1 v r2 hval
        split at h
        · rename_i r4
          rw [PR.bind_eq_ok] at h
          obtain ⟨rest, r5, hrest, h⟩ := h
          injection h with h1 h2
          subst h1
          exact .cons pre v post true rest hpre hv
            ((skipT_classify _ r2 post _ hskip2).1 (by simp))
            (by intro hcf; cases hcf) (iha r4 rest r5 hrest)
        · rename_i r4
          injection h with h1 h2
          subst h1
          exact .cons pre v post false (.nil []) hpre hv
            ((skipT_classify _ r2 post _ hskip2).1 (by simp))
            (fun _ => rfl) (.nil [] .nil)
        · cases h

/-- Well-formedness of what `parseRoot` returns. -/
theorem parseRoot_wf (cs : List Char) (r : JRoot) (h : parseRoot cs = some r) :
    (r.value = none → TriviaEnd r.pre ∧ r.post = []) ∧
    (∀ v, r.value = some v → TriviaRun r.pre ∧ WFVal v ∧ TriviaEnd r.post) := by
  simp only [parseRoot] at h
  split at h
  · rename_i r2 rest heq
    injection h with h
    subst h
    rw [PR.bind_eq_ok] at heq
    obtain ⟨pre, r1, hskip, h2⟩ := heq
    split at h2
    · injection h2 with h3 h4
      rw [← h3]
      constructor
      · intro _
        exact ⟨(skipT_classify _ cs pre [] hskip).2 rfl, rfl⟩
      · intro v hv
        cases hv
    · rename_i hne
      rw [PR.bind_eq_ok] at h2
      obtain ⟨v, r2b, hval, h2⟩ := h2
      rw [PR.bind_eq_ok] at h2
      obtain ⟨post, r3, hskip2, h2⟩ := h2
      split at h2
      · injection h2 with h3 h4
        rw [← h3]
        constructor
        · intro hv
          cases hv
        · intro v2 hv2
          injection hv2 with hv2
          subst hv2
          refine ⟨(skipT_classify _ cs pre r1 hskip).1 hne, (parse_wf _).1 r1 v _ hval,
            (skipT_classify _ r2b post [] hskip2).2 rfl⟩
      · cases h2
  · cases h

/-- The trivia scanner never runs out of fuel at `length + 1`. -/
theorem skipT_no_out :
    ∀ (f : Nat) (cs : List Char), cs.length + 1 ≤ f → skipT f cs ≠ .out := by
  intro f
  induction f with
  | zero => intro cs h; exact absurd h (by omega)
  | succ f ih =>
    intro cs hlen
    cases cs with
    | nil =>
      intro h
      cases h
    | cons c cs2 =>
      intro h
      simp only [skipT] at h
      split at h
      · rw [PR.bind_eq_out] at h
        rcases h with h | ⟨a, m, hk, hg⟩
        · refine ih cs2 ?_ h
          simp only [List.length_cons] at hlen
          omega
        · cases hg
      · split at h
        · split at h
          · cases h
          · rename_i c2 cs3
            split at h
            · rw [PR.bind_eq_out] at h
              rcases h with h | ⟨a, m, hk, hg⟩
              · have hc := congrArg List.length (takeLine_consumed cs3)
                simp only [List.length_append] at hc
                refine ih _ ?_ h
                simp only [List.length_cons] at hlen
                omega
              · cases hg
            · split at h
              · split at h
                · cases h
                · rename_i q hq
                  rw [PR.bind_eq_out] at h
                  rcases h with h | ⟨a, m, hk, hg⟩
                  · have hc := congrArg List.length
                      (takeBlockAux_consumed cs3 false q.1 q.2 (by rw [hq]))
                    simp only [List.length_append] at hc
                    refine ih _ ?_ h
                    simp only [List.length_cons] at hlen
                    omega
                  · cases hg
              · cases h
        · cases h

theorem skipTriviaW_no_out (cs : List Char) : skipTriviaW cs ≠ .out :=
  skipT_no_out (cs.length + 1) cs (by omega)

/-- The parser never runs out of fuel at twice the input length. -/
theorem parse_no_out (f : Nat) :
    (∀ cs, 2 * cs.length + 1 ≤ f → parseValueF f cs ≠ .out) ∧
    (∀ cs, 2 * cs.length + 2 ≤ f → parseBodyF f cs ≠ .out) ∧
    (∀ cs, 2 * cs.length + 2 ≤ f → parseArrF f cs ≠ .out) := by
  induction f with
  | zero =>
    refine ⟨?_, ?_, ?_⟩ <;> intro cs hl <;> exact absurd hl (by omega)
  | succ f ih =>
    obtain ⟨ihv, ihb, iha⟩ := ih
    refine ⟨?_, ?_, ?_⟩
    · intro cs hl h
      rw [parseValueF_succ] at h
      split at h
      · cases h
      · rename_i r0
        rw [PR.bind_eq_out] at h
        rcases h with h | ⟨a, m, hk, hg⟩
        · refine ihb r0 ?_ h
          simp only [List.length_cons] at hl
          omega
        · cases hg
      · rename_i r0
        rw [PR.bind_eq_out] at h
        rcases h with h | ⟨a, m, hk, hg⟩
        · refine iha r0 ?_ h
          simp only [List.length_cons] at hl
          omega
        · cases hg
      · rename_i r0
        rw [PR.bind_eq_out] at h
        rcases h with h | ⟨a, m, hk, hg⟩
        · cases hst : strTail r0 <;> rw [hst] at h <;> simp [liftO] at h
        · cases hg
      · rename_i c r0 hne1 hne2 hne3
        split at h
        · cases h
        · cases h
    · intro cs hl h
      rw [parseBodyF_succ] at h
      rw [PR.bind_eq_out] at h
      rcases h with h | ⟨pre, r1, hskip, h⟩
      · exact skipTriviaW_no_out cs h
      · have e0 := congrArg List.length (skipT_consumed _ cs pre r1 hskip)
        simp only [List.length_append] at e0
        split at h
        · cases h
        · rename_i r2
          rw [PR.bind_eq_out] at h
          rcases h with h | ⟨kt, r3, hstr, h⟩
          · cases hst : strTail r2 <;> rw [hst] at h <;> simp [liftO] at h
          · rw [liftO_eq_ok] at hstr
            have e1 := congrArg List.length (strTailAux_consumed r2 false kt r3 hstr)
            simp only [List.length_append] at e1
            rw [PR.bind_eq_out] at h
            rcases h with h | ⟨pc, r4, hskip2, h⟩
            · exact skipTriviaW_no_out r3 h
            · have e2 := congrArg List.length (skipT_consumed _ r3 pc r4 hskip2)
              simp only [List.length_append] at e2
              split at h
              · rename_i r5
                rw [PR.bind_eq_out] at h
                rcases h with h | ⟨poc, r6, hskip3, h⟩
                · exact skipTriviaW_no_out r5 h
                · have e3 := congrArg List.length (skipT_consumed _ r5 poc r6 hskip3)
                  simp only [List.length_append] at e3
                  rw [PR.bind_eq_out] at h
                  rcases h with h | ⟨v, r7, hval, h⟩
                  · refine ihv r6 ?_ h
                    simp only [List.length_cons] at e0 e2 hl
                    omega
                  · obtain ⟨hc4, hpne⟩ := (parse_consumed f).1 r6 v r7 hval
                    have e4 := congrArg List.length hc4
                    simp only [List.length_append] at e4
                    have hpv : 0 < (printVal v).length := List.length_pos.mpr hpne
                    rw [PR.bind_eq_out] at h
                    rcases h with h | ⟨post, r8, hskip4, h⟩
                    · exact skipTriviaW_no_out r7 h
                    · have e5 := congrArg List.length (skipT_consumed _ r7 post r8 hskip4)
                      simp only [List.length_append] at e5
                      split at h
                      · rename_i r9
                        rw [PR.bind_eq_out] at h
                        rcases h with h | ⟨rest, r10, hrest, h⟩
                        · refine ihb r9 ?_ h
                          simp only [List.length_cons] at e0 e2 e5 hl
                          omega
                        · cases h
                      · cases h
                      · cases h
              · cases h
        · cases h
    · intro cs hl h
      rw [parseArrF_succ] at h
      rw [PR.bind_eq_out] at h
      rcases h with h | ⟨pre, r1, hskip, h⟩
      · exact skipTriviaW_no_out cs h
      · have e0 := congrArg List.length (skipT_consumed _ cs pre r1 hskip)
        simp only [List.length_append] at e0
        split at h
        · cases h
        · rw [PR.bind_eq_out] at h
          rcases h with h | ⟨v, r2, hval, h⟩
          · refine ihv r1 ?_ h
            omega
          · obtain ⟨hc1, hpne⟩ := (parse_consumed f).1 r1 v r2 hval
            have e1 := congrArg List.length hc1
            simp only [List.length_append] at e1
            have hpv : 0 < (printVal v).length := List.length_pos.mpr hpne
            rw [PR.bind_eq_out] at h
            rcases h with h | ⟨post, r3, hskip2, h⟩
            · exact skipTriviaW_no_out r2 h
            · have e2 := congrArg List.length (skipT_consumed _ r2 post r3 hskip2)
              simp only [List.length_append] at e2
              split at h
              · rename_i r4
                rw [PR.bind_eq_out] at h
                rcases h with h | ⟨rest, r5, hrest, h⟩
                · refine iha r4 ?_ h
                  simp only [List.length_cons] at e2 hl
                  omega
                · cases h
              · cases h
              · cases h

theorem skipTriviaW_run {t : List Char} (ht : TriviaRun t) {ext : List Char}
    (hext : goodAfterTrivia ext) : skipTriviaW (t ++ ext) = .ok t ext := by
  rcases TriviaRun_reparse ht ext hext ((t ++ ext).length + 1) with h | h
  · exact absurd h (skipTriviaW_no_out _)
  · exact h

theorem skipTriviaW_end {t : List Char} (ht : TriviaEnd t) :
    skipTriviaW t = .ok t [] := by
  rcases TriviaEnd_reparse ht (t.length + 1) with h | h
  · exact absurd h (skipTriviaW_no_out _)
  · exact h

theorem scalarChar_not_trivia {c : Char} (h : isScalarChar c = true) :
    isWsChar c = false ∧ c ≠ '/' := by
  constructor
  · cases hw : isWsChar c with
    | false => rfl
    | true =>
      exfalso
      simp only [isWsChar, Bool.or_eq_true, decide_eq_true_eq] at hw
      rcases hw with ((h1 | h1) | h1) | h1 <;> subst h1 <;> exact absurd h (by decide)
  · intro hc
    subst hc
    exact absurd h (by decide)

/-- A printed well-formed value begins with a non-trivia character. -/
theorem goodAfterTrivia_printVal {v : JVal} (hv : WFVal v) (X : List Char) :
    goodAfterTrivia (printVal v ++ X) := by
  cases hv with
  | str t _ =>
    simp only [printVal, List.cons_append]
    exact ⟨by decide, by decide⟩
  | scalar s hs =>
    obtain ⟨hne, hall, _⟩ := hs
    cases s with
    | nil => exact absurd rfl hne
    | cons c s2 =>
      simp only [List.all_cons, Bool.and_eq_true] at hall
      simp only [printVal, List.cons_append]
      exact scalarChar_not_trivia hall.1
  | obj b _ =>
    simp only [printVal, List.cons_append]
    exact ⟨by decide, by decide⟩
  | arr a _ =>
    simp only [printVal, List.cons_append]
    exact ⟨by decide, by decide⟩

theorem wsChar_not_scalar {c : Char} (h : isWsChar c = true) :
    isScalarChar c = false := by
  simp only [isWsChar, Bool.or_eq_true, decide_eq_true_eq] at h
  rcases h with ((h1 | h1) | h1) | h1 <;> subst h1 <;> decide

/-- A trivia run (or the separator/closer that follows) cannot extend a
scalar token. -/
theorem goodScalarFollow_trivia {t : List Char} (ht : TriviaRun t)
    {Z : List Char} (hZ : goodScalarFollow Z) : goodScalarFollow (t ++ Z) := by
  cases t with
  | nil => simpa using hZ
  | cons c t2 =>
    simp only [List.cons_append, goodScalarFollow]
    rcases TriviaRun_head ht c t2 rfl with h | h
    · exact wsChar_not_scalar h
    · subst h
      decide

theorem goodAfterTrivia_cons {c : Char} (h1 : isWsChar c = false) (h2 : c ≠ '/')
    (X : List Char) : goodAfterTrivia (c :: X) := ⟨h1, h2⟩

theorem skipTriviaW_run_cons {t : List Char} (ht : TriviaRun t) {c : Char}
    (h1 : isWsChar c = false) (h2 : c ≠ '/') (X : List Char) :
    skipTriviaW (t ++ (c :: X)) = .ok t (c :: X) :=
  skipTriviaW_run ht ⟨h1, h2⟩

theorem goodScalarFollow_cons {c : Char} (h : isScalarChar c = false)
    (X : List Char) : goodScalarFollow (c :: X) := h

/-- After a value, trivia followed by a separator or closer never extends a
scalar. -/
theorem goodV_of_trivia_follow {v : JVal} {post Z : List Char}
    (hpost : TriviaRun post) (hZ : goodScalarFollow Z) : goodV v (post ++ Z) := by
  have hgs : goodScalarFollow (post ++ Z) := goodScalarFollow_trivia hpost hZ
  cases v with
  | raw s =>
    cases hps : post ++ Z with
    | nil => simp [goodV]
    | cons d ds =>
      rw [hps] at hgs
      simp only [goodV]
      intro _
      exact hgs
  | obj b =>
    cases post ++ Z <;> trivial
  | arr a =>
    cases post ++ Z <;> trivial

/-- A printed well-formed value never begins with `']'`. -/
theorem printVal_ne_rbracket {v : JVal} (hv : WFVal v) (T r2 : List Char) :
    printVal v ++ T ≠ ']' :: r2 := by
  cases hv with
  | str t _ =>
    simp only [printVal, List.cons_append]
    intro h
    injection h with h1 _
    exact absurd h1 (by decide)
  | scalar s hs =>
    obtain ⟨hne, hall, _⟩ := hs
    cases s with
    | nil => exact absurd rfl hne
    | cons c s2 =>
      simp only [List.all_cons, Bool.and_eq_true] at hall
      simp only [printVal, List.cons_append]
      intro h
      injection h with h1 _
      rw [h1] at hall
      exact absurd hall.1 (by decide)
  | obj b _ =>
    simp only [printVal, List.cons_append]
    intro h
    injection h with h1 _
    exact absurd h1 (by decide)
  | arr a _ =>
    simp only [printVal, List.cons_append]
    intro h
    injection h with h1 _
    exact absurd h1 (by decide)

theorem parseValueF_succ_scalar (f : Nat) (c : Char) (r : List Char)
    (h1 : c ≠ '{') (h2 : c ≠ '[') (h3 : c ≠ '"') :
    parseValueF (f + 1) (c :: r) =
      (if !(takeScalar (c :: r)).1.isEmpty && validScalar (takeScalar (c :: r)).1 then
        .ok (.raw (takeScalar (c :: r)).1) (takeScalar (c :: r)).2
      else .fail) := by
  rw [parseValueF_succ]
  split
  · rename_i heq
    cases heq
  · rename_i heq
    injection heq with hc _
    exact absurd hc h1
  · rename_i heq
    injection heq with hc _
    exact absurd hc h2
  · rename_i heq
    injection heq with hc _
    exact absurd hc h3
  · rename_i heq
    injection heq with e1 e2
    subst e1
    subst e2
    rfl

mutual

/-- Re-parsing a printed well-formed value returns exactly that value
(unless fuel runs out). -/
theorem wf_reparse_val : ∀ (v : JVal), WFVal v → ∀ (f : Nat) (ext : List Char),
    goodV v ext →
    parseValueF f (printVal v ++ ext) = .out ∨
      parseValueF f (printVal v ++ ext) = .ok v ext
  | _, _, 0, _, _ => .inl (parseValueF_zero _)
  | .raw s, hv, f + 1, ext, hg => by
    cases hv with
    | str t hst =>
      right
      rw [show printVal (JVal.raw ('"' :: t)) ++ ext = '"' :: (t ++ ext) from by
        simp [printVal]]
      rw [parseValueF_succ]
      simp only []
      rw [show strTail (t ++ ext) = some (t, ext) from hst ext]
      rfl
    | scalar s2 hs =>
      right
      obtain ⟨hne, hall, hvalid⟩ := hs
      cases s with
      | nil => exact absurd rfl hne
      | cons c s3 =>
        have hall2 := hall
        simp only [List.all_cons, Bool.and_eq_true] at hall2
        have hgs : goodScalarFollow ext := by
          cases ext with
          | nil => trivial
          | cons d ds =>
            simp only [goodV] at hg
            exact hg hall
        have hts : takeScalar ((c :: s3) ++ ext) = (c :: s3, ext) :=
          takeScalar_extend (c :: s3) hall ext hgs
        rw [show printVal (JVal.raw (c :: s3)) ++ ext = c :: (s3 ++ ext) from by
          simp [printVal]]
        rw [parseValueF_succ_scalar f c (s3 ++ ext)
          (fun hc => absurd hall2.1 (by rw [hc]; decide))
          (fun hc => absurd hall2.1 (by rw [hc]; decide))
          (fun hc => absurd hall2.1 (by rw [hc]; decide))]
        rw [show c :: (s3 ++ ext) = (c :: s3) ++ ext from by simp, hts]
        simp only [List.isEmpty_cons, Bool.not_false, Bool.true_and, hvalid, if_true]
  | .obj b, hv, f + 1, ext, hg => by
    have hb : WFBody b := by cases hv with | obj _ h => exact h
    rw [show printVal (JVal.obj b) ++ ext = '{' :: (printBody b ++ ext) from by
      simp [printVal]]
    rw [parseValueF_succ]
    simp only []
    rcases wf_reparse_body b hb f ext with h | h
    · left
      rw [h]
      rfl
    · right
      rw [h]
      rfl
  | .arr a, hv, f + 1, ext, hg => by
    have ha : WFArr a := by cases hv with | arr _ h => exact h
    rw [show printVal (JVal.arr a) ++ ext = '[' :: (printArr a ++ ext) from by
      simp [printVal]]
    rw [parseValueF_succ]
    simp only []
    rcases wf_reparse_arr a ha f ext with h | h
    · left
      rw [h]
      rfl
    · right
      rw [h]
      rfl

/-- Re-parsing a printed well-formed object body returns exactly that
body. -/
theorem wf_reparse_body : ∀ (b : JBody), WFBody b → ∀ (f : Nat) (ext : List Char),
    parseBodyF f (printBody b ++ ext) = .out ∨
      parseBodyF f (printBody b ++ ext) = .ok b ext
  | _, _, 0, _ => .inl (parseBodyF_zero _)
  | .nil i, hb, f + 1, ext => by
    have hi : TriviaRun i := by cases hb with | nil _ h => exact h
    rw [show printBody (JBody.nil i) ++ ext = i ++ ('}' :: ext) from by simp [printBody]]
    rw [parseBodyF_succ]
    rw [skipTriviaW_run_cons hi (by decide) (by decide)]
    right
    rfl
  | .cons pre key pc poc v post comma rest, hb, f + 1, ext => by
    cases hb with
    | cons pre kt pc poc v post comma rest hpre hkt hpc hpoc hv hpost hcomma hrest =>
      cases comma with
      | true =>
        rw [show printBody (JBody.cons pre ('"' :: kt) pc poc v post true rest) ++ ext =
            pre ++ ('"' :: (kt ++ (pc ++ (':' :: (poc ++ (printVal v ++
              (post ++ (',' :: (printBody rest ++ ext))))))))) from by
          simp [printBody]]
        rw [parseBodyF_succ]
        rw [skipTriviaW_run_cons hpre (by decide) (by decide)]
        simp only [PR.bind]
        rw [show strTail (kt ++ (pc ++ (':' :: (poc ++ (printVal v ++
            (post ++ (',' :: (printBody rest ++ ext)))))))) =
          some (kt, pc ++ (':' :: (poc ++ (printVal v ++
            (post ++ (',' :: (printBody rest ++ ext))))))) from hkt _]
        simp only [liftO, PR.bind]
        rw [skipTriviaW_run_cons hpc (by decide) (by decide)]
        simp only [PR.bind]
        rw [skipTriviaW_run hpoc (goodAfterTrivia_printVal hv _)]
        simp only [PR.bind]
        rcases wf_reparse_val v hv f (post ++ (',' :: (printBody rest ++ ext)))
            (goodV_of_trivia_follow hpost (goodScalarFollow_cons (by decide) _)) with h | h
        · left
          rw [h]
        · rw [h]
          simp only [PR.bind]
          rw [skipTriviaW_run_cons hpost (by decide) (by decide)]
          simp only [PR.bind]
          rcases wf_reparse_body rest hrest f ext with h2 | h2
          · left
            rw [h2]
          · right
            rw [h2]
      | false =>
        have hrest0 : rest = .nil [] := hcomma rfl
        subst hrest0
        rw [show printBody (JBody.cons pre ('"' :: kt) pc poc v post false
              (JBody.nil [])) ++ ext =
            pre ++ ('"' :: (kt ++ (pc ++ (':' :: (poc ++ (printVal v ++
              (post ++ ('}' :: ext)))))))) from by
          simp [printBody]]
        rw [parseBodyF_succ]
        rw [skipTriviaW_run_cons hpre (by decide) (by decide)]
        simp only [PR.bind]
        rw [show strTail (kt ++ (pc ++ (':' :: (poc ++ (printVal v ++
            (post ++ ('}' :: ext))))))) =
          some (kt, pc ++ (':' :: (poc ++ (printVal v ++
            (post ++ ('}' :: ext)))))) from hkt _]
        simp only [liftO, PR.bind]
        rw [skipTriviaW_run_cons hpc (by decide) (by decide)]
        simp only [PR.bind]
        rw [skipTriviaW_run hpoc (goodAfterTrivia_printVal hv _)]
        simp only [PR.bind]
        rcases wf_reparse_val v hv f (post ++ ('}' :: ext))
            (goodV_of_trivia_follow hpost (goodScalarFollow_cons (by decide) _)) with h | h
        · left
          rw [h]
        · rw [h]
          simp only [PR.bind]
          rw [skipTriviaW_run_cons hpost (by decide) (by decide)]
          right
          rfl

/-- Re-parsing a printed well-formed array body returns exactly that
body. -/
theorem wf_reparse_arr : ∀ (a : JArr), WFArr a → ∀ (f : Nat) (ext : List Char),
    parseArrF f (printArr a ++ ext) = .out ∨
      parseArrF f (printArr a ++ ext) = .ok a ext
  | _, _, 0, _ => .inl (parseArrF_zero _)
  | .nil i, ha, f + 1, ext => by
    have hi : TriviaRun i := by cases ha with | nil _ h => exact h
    rw [show printArr (JArr.nil i) ++ ext = i ++ (']' :: ext) from by simp [printArr]]
    rw [parseArrF_succ]
    rw [skipTriviaW_run_cons hi (by decide) (by decide)]
    right
    rfl
  | .cons pre v post comma rest, ha, f + 1, ext => by
    cases ha with
    | cons pre v post comma rest hpre hv hpost hcomma hrest =>
      cases comma with
      | true =>
        rw [show printArr (JArr.cons pre v post true rest) ++ ext =
            pre ++ (printVal v ++ (post ++ (',' :: (printArr rest ++ ext)))) from by
          simp [printArr]]
        rw [parseArrF_succ]
        rw [skipTriviaW_run hpre (goodAfterTrivia_printVal hv _)]
        simp only [PR.bind]
        split
        · rename_i heq
          exact absurd heq (printVal_ne_rbracket hv _ _)
        · rcases wf_reparse_val v hv f (post ++ (',' :: (printArr rest ++ ext)))
              (goodV_of_trivia_follow hpost (goodScalarFollow_cons (by decide) _)) with h | h
          · left
            rw [h]
          · rw [h]
            simp only [PR.bind]
            rw [skipTriviaW_run_cons hpost (by decide) (by decide)]
            simp only [PR.bind]
            rcases wf_reparse_arr rest hrest f ext with h2 | h2
            · left
              rw [h2]
            · right
              rw [h2]
      | false =>
        have hrest0 : rest = .nil [] := hcomma rfl
        subst hrest0
        rw [show printArr (JArr.cons pre v post false (JArr.nil [])) ++ ext =
            pre ++ (printVal v ++ (post ++ (']' :: ext))) from by
          simp [printArr]]
        rw [parseArrF_succ]
        rw [skipTriviaW_run hpre (goodAfterTrivia_printVal hv _)]
        simp only [PR.bind]
        split
        · rename_i heq
          exact absurd heq (printVal_ne_rbracket hv _ _)
        · rcases wf_reparse_val v hv f (post ++ (']' :: ext))
              (goodV_of_trivia_follow hpost (goodScalarFollow_cons (by decide) _)) with h | h
          · left
            rw [h]
          · rw [h]
            simp only [PR.bind]
            rw [skipTriviaW_run_cons hpost (by decide) (by decide)]
            right
            rfl

end

theorem goodV_of_end {v : JVal} {post : List Char} (hp : TriviaEnd post) :
    goodV v post := by
  cases v with
  | raw s =>
    cases post with
    | nil => trivial
    | cons d ds =>
      simp only [goodV]
      intro _
      rcases TriviaEnd_head hp d ds rfl with h | h
      · exact wsChar_not_scalar h
      · subst h
        decide
  | obj b => cases post <;> trivial
  | arr a => cases post <;> trivial

theorem printVal_ne_nil {v : JVal} (hv : WFVal v) : printVal v ≠ [] := by
  cases hv with
  | str t _ => simp [printVal]
  | scalar s hs =>
    cases s with
    | nil => exact absurd rfl hs.1
    | cons c s2 => simp [printVal]
  | obj b _ => simp [printVal]
  | arr a _ => simp [printVal]

/-- Re-parsing a printed well-formed document returns exactly that
document. -/
theorem root_reparse (pre post : List Char) (v : JVal) (hpre : TriviaRun pre)
    (hv : WFVal v) (hpost : TriviaEnd post) :
    parseRoot (pre ++ (printVal v ++ post)) = some ⟨pre, some v, post⟩ := by
  have hne : printVal v ++ post ≠ [] := by
    intro h
    exact printVal_ne_nil hv (List.append_eq_nil.mp h).1
  obtain ⟨c, X, he⟩ : ∃ c X, printVal v ++ post = c :: X := by
    cases hpv : printVal v ++ post with
    | nil => exact absurd hpv hne
    | cons c X => exact ⟨c, X, rfl⟩
  have hlen : 2 * (printVal v ++ post).length + 1 ≤
      rootFuel (pre ++ (printVal v ++ post)) := by
    simp only [rootFuel, List.length_append]
    omega
  simp only [parseRoot]
  rw [skipTriviaW_run hpre (goodAfterTrivia_printVal hv post)]
  simp only [PR.bind]
  rcases wf_reparse_val v hv (rootFuel (pre ++ (printVal v ++ post))) post
      (goodV_of_end hpost) with h | h
  · exact absurd h ((parse_no_out _).1 _ hlen)
  · simp only [h, skipTriviaW_end hpost]

/-- Printing a parsed document reproduces the input text exactly. -/
theorem parseRoot_consumed (cs : List Char) (r : JRoot)
    (h : parseRoot cs = some r) : printRoot r = cs := by
  simp only [parseRoot] at h
  split at h
  · rename_i r2 rest heq
    injection h with h
    subst h
    rw [PR.bind_eq_ok] at heq
    obtain ⟨pre, r1, hskip, h2⟩ := heq
    have hc0 := skipT_consumed _ cs pre r1 hskip
    split at h2
    · injection h2 with h3 h4
      rw [← h3]
      simp only [printRoot]
      simpa using hc0
    · rw [PR.bind_eq_ok] at h2
      obtain ⟨v, r2b, hval, h2⟩ := h2
      have hc1 := ((parse_consumed _).1 r1 v r2b hval).1
      rw [PR.bind_eq_ok] at h2
      obtain ⟨post, r3, hskip2, h2⟩ := h2
      have hc2 := skipT_consumed _ r2b post r3 hskip2
      split at h2
      · injection h2 with h3 h4
        rw [← h3]
        simp only [printRoot]
        rw [← hc0, ← hc1]
        simp only [List.append_nil] at hc2
        rw [hc2]
      · cases h2
  · cases h

theorem mapPropValue_eq_self :
    ∀ (b : JBody) (n : List Char) (f : JVal → JVal) (v : JVal),
      findProp b n = some v → f v = v → mapPropValue b n f = b
  | .nil _, _, _, _, hf, _ => rfl
  | .cons pre key pc poc v2 post comma rest, n, f, v, hf, hfix => by
    simp only [findProp] at hf
    simp only [mapPropValue]
    split at hf
    · rename_i hk
      rw [if_pos hk]
      injection hf with hf
      subst hf
      rw [hfix]
    · rename_i hk
      rw [if_neg hk]
      rw [mapPropValue_eq_self rest n f v hf hfix]
termination_by structural b _ _ _ _ _ => b

def plainStrChar (c : Char) : Bool := !(c = '"' || c = '\\' || c = '\n')

theorem strTailAux_plain :
    ∀ (s : List Char), s.all plainStrChar = true →
      ∀ ext, strTailAux false ((s ++ ['"']) ++ ext) = some (s ++ ['"'], ext) := by
  intro s
  induction s with
  | nil =>
    intro _ ext
    simp [strTailAux]
  | cons c s2 ih =>
    intro hall ext
    simp only [List.all_cons, Bool.and_eq_true] at hall
    have hplain := hall.1
    simp only [plainStrChar, Bool.not_eq_true', Bool.or_eq_false_iff,
      decide_eq_false_iff_not] at hplain
    obtain ⟨⟨h1, h2⟩, h3⟩ := hplain
    simp only [List.cons_append, strTailAux, h1, h2, h3, if_false, List.append_eq]
    rw [ih hall.2 ext]
    rfl

theorem StrOK_append_quote {s : List Char} (h : s.all plainStrChar = true) :
    StrOK (s ++ ['"']) := fun ext => strTailAux_plain s h ext

theorem WFVal_trueRaw : WFVal (.raw trueRaw) :=
  .scalar trueRaw ⟨by decide, by decide, by decide⟩

theorem TriviaRun_space : TriviaRun [' '] := .ws ' ' [] (by decide) .nil

theorem appendProp_wf :
    ∀ (b : JBody), WFBody b → ∀ (kt : List Char), StrOK kt →
      ∀ (nv : JVal), WFVal nv → WFBody (appendProp b ('"' :: kt) nv)
  | .nil i, hb, kt, hkt, nv, hnv => by
    have hi : TriviaRun i := by cases hb with | nil _ h => exact h
    exact WFBody.cons (i ++ [' ']) kt [] [' '] nv [] false (.nil [])
      (TriviaRun_append hi TriviaRun_space) hkt .nil TriviaRun_space hnv .nil
      (fun _ => rfl) (.nil [] .nil)
  | .cons pre key pc poc v post comma (.nil i), hb, kt, hkt, nv, hnv => by
    cases hb with
    | cons pre kt0 pc poc v post comma rest hpre hkt0 hpc hpoc hv hpost hcomma hrest =>
      have hi : TriviaRun i := by cases hrest with | nil _ h => exact h
      exact WFBody.cons pre kt0 pc poc v post true
        (.cons (i ++ [' ']) ('"' :: kt) [] [' '] nv [] false (.nil []))
        hpre hkt0 hpc hpoc hv hpost (fun hcf => by cases hcf)
        (WFBody.cons (i ++ [' ']) kt [] [' '] nv [] false (.nil [])
          (TriviaRun_append hi TriviaRun_space) hkt .nil TriviaRun_space hnv .nil
          (fun _ => rfl) (.nil [] .nil))
  | .cons pre key pc poc v post comma (.cons a1 a2 a3 a4 a5 a6 a7 a8), hb, kt, hkt, nv, hnv => by
    cases hb with
    | cons pre kt0 pc poc v post comma rest hpre hkt0 hpc hpoc hv hpost hcomma hrest =>
      exact WFBody.cons pre kt0 pc poc v post comma
        (appendProp (.cons a1 a2 a3 a4 a5 a6 a7 a8) ('"' :: kt) nv)
        hpre hkt0 hpc hpoc hv hpost (fun hcf => nomatch hcomma hcf)
        (appendProp_wf (.cons a1 a2 a3 a4 a5 a6 a7 a8) hrest kt hkt nv hnv)
termination_by structural b _ _ _ _ _ => b

theorem mapPropValue_wf :
    ∀ (b : JBody), WFBody b → ∀ (n : List Char) (f : JVal → JVal),
      (∀ v, WFVal v → WFVal (f v)) → WFBody (mapPropValue b n f)
  | .nil _, hb, _, _, _ => hb
  | .cons pre key pc poc v post comma rest, hb, n, f, hf => by
    cases hb with
    | cons pre kt pc poc v post comma rest hpre hkt hpc hpoc hv hpost hcomma hrest =>
      simp only [mapPropValue]
      split
      · exact WFBody.cons pre kt pc poc (f v) post comma rest hpre hkt hpc hpoc
          (hf v hv) hpost hcomma hrest
      · exact WFBody.cons pre kt pc poc v post comma (mapPropValue rest n f)
          hpre hkt hpc hpoc hv hpost
          (fun hcf => by rw [hcomma hcf]; rfl)
          (mapPropValue_wf rest hrest n f hf)
termination_by structural b _ _ _ _ => b

theorem wakUpdate_wf (v : JVal) (hv : WFVal v) : WFVal (wakUpdate v) := by
  cases hv with
  | obj b hb =>
    simp only [wakUpdate]
    split
    · exact .obj _ (appendProp_wf b hb ("wakatime".data ++ ['"'])
        (StrOK_append_quote (by decide)) (.raw trueRaw) WFVal_trueRaw)
    · exact .obj _ (mapPropValue_wf b hb wakName _ (fun _ _ => WFVal_trueRaw))
  | str t h => exact .str t h
  | scalar s h => exact .scalar s h
  | arr a h => exact .arr a h

theorem patchBody_wf (b : JBody) (hb : WFBody b) (b2 : JBody)
    (h : patchBody b = .ok b2) : WFBody b2 := by
  simp only [patchBody, orCreateAie] at h
  split at h
  · cases h
  · rename_i b1 heq
    injection h with h
    subst h
    split at heq
    · injection heq with heq
      subst heq
      exact mapPropValue_wf _
        (appendProp_wf b hb ("auto_install_extensions".data ++ ['"'])
          (StrOK_append_quote (by decide)) (.obj (.nil [])) (.obj _ (.nil [] .nil)))
        aieName wakUpdate wakUpdate_wf
    · injection heq with heq
      subst heq
      exact mapPropValue_wf b hb aieName wakUpdate wakUpdate_wf
    · cases heq

theorem findProp_mapProp :
    ∀ (b : JBody) (n : List Char) (f : JVal → JVal),
      findProp (mapPropValue b n f) n = (findProp b n).map f
  | .nil _, _, _ => rfl
  | .cons pre key pc poc v post comma rest, n, f => by
    by_cases hk : decodeKey key = some n
    · simp [mapPropValue, findProp, hk]
    · simp only [mapPropValue, findProp, hk, if_neg, if_false]
      rw [findProp_mapProp rest n f]
termination_by structural b _ _ => b

theorem findProp_append :
    ∀ (b : JBody) (n key : List Char) (nv : JVal),
      findProp b n = none → decodeKey key = some n →
      findProp (appendProp b key nv) n = some nv
  | .nil i, n, key, nv, _, hk => by
    simp [appendProp, findProp, hk]
  | .cons pre k pc poc v post comma rest, n, key, nv, hnone, hk => by
    simp only [findProp] at hnone
    by_cases hkk : decodeKey k = some n
    · rw [if_pos hkk] at hnone
      cases hnone
    · rw [if_neg hkk] at hnone
      simp only [appendProp]
      cases rest with
      | nil i =>
        simp [findProp, hkk, hk]
      | cons a1 a2 a3 a4 a5 a6 a7 a8 =>
        simp only [findProp, hkk, if_neg, if_false]
        exact findProp_append _ n key nv hnone hk
termination_by structural b _ _ _ _ _ => b

/-- The inner `wakatime` step leaves an object fixed once `wakatime`
already maps to the literal `true`. -/
theorem wakUpdate_fix {X : JBody} (h : findProp X wakName = some (.raw trueRaw)) :
    wakUpdate (.obj X) = .obj X := by
  simp only [wakUpdate, h]
  rw [mapPropValue_eq_self X wakName _ _ h rfl]

/-- After the wakatime step, `wakatime` maps to the literal `true`. -/
theorem wakUpdate_sets {X : JBody} :
    findProp (match findProp X wakName with
      | none => appendProp X wakKeyTok (.raw trueRaw)
      | some _ => mapPropValue X wakName fun _ => .raw trueRaw) wakName =
      some (.raw trueRaw) := by
  cases hf : findProp X wakName with
  | none => exact findProp_append X wakName wakKeyTok (.raw trueRaw) hf (by decide)
  | some w =>
    rw [findProp_mapProp X wakName (fun _ => .raw trueRaw), hf]
    rfl

/-- Patching is idempotent at the document-tree level: a patched body is a
fixpoint of the patch. -/
theorem patchBody_fixpoint (b b2 : JBody) (h : patchBody b = .ok b2) :
    patchBody b2 = .ok b2 := by
  simp only [patchBody, orCreateAie] at h
  have main : ∀ (b1 X : JBody), findProp b1 aieName = some (.obj X) →
      patchBody (mapPropValue b1 aieName wakUpdate) =
        .ok (mapPropValue b1 aieName wakUpdate) := by
    intro b1 X hfind
    have hfind2 : findProp (mapPropValue b1 aieName wakUpdate) aieName =
        some (wakUpdate (.obj X)) := by
      rw [findProp_mapProp b1 aieName wakUpdate, hfind]
      rfl
    have hshape : ∃ X2, wakUpdate (.obj X) = .obj X2 ∧
        findProp X2 wakName = some (.raw trueRaw) := by
      refine ⟨_, rfl, ?_⟩
      exact wakUpdate_sets
    obtain ⟨X2, hX2, hwak2⟩ := hshape
    rw [hX2] at hfind2
    simp only [patchBody, orCreateAie, hfind2]
    rw [mapPropValue_eq_self _ aieName wakUpdate _ hfind2 (wakUpdate_fix hwak2)]
  split at h
  · cases h
  · rename_i b1 heq
    injection h with h
    subst h
    split at heq
    · rename_i hnone
      injection heq with heq
      subst heq
      exact main _ (.nil [])
        (findProp_append b aieName aieKeyTok (.obj (.nil [])) hnone (by decide))
    · rename_i X hsome
      injection heq with heq
      subst heq
      exact main b X hsome
    · cases heq

theorem isBlank_eq_false {t : List Char} (c : Char) (hc : c ∈ t)
    (hw : isWsChar c = false) : isBlank t = false := by
  cases hb : isBlank t with
  | false => rfl
  | true =>
    exfalso
    have hall := List.all_eq_true.mp hb c hc
    rw [hall] at hw
    cases hw

/-! ## Frame lemmas: what the patch leaves untouched -/

theorem InfixOf_mono {x l : List Char} (h : InfixOf x l) (u v : List Char) :
    InfixOf x (u ++ l ++ v) := by
  obtain ⟨a, c, hl⟩ := h
  exact ⟨u ++ a, c ++ v, by rw [hl]; simp⟩

theorem InfixOf_trans {x y z : List Char} (h1 : InfixOf x y) (h2 : InfixOf y z) :
    InfixOf x z := by
  obtain ⟨a, c, hy⟩ := h1
  obtain ⟨d, e, hz⟩ := h2
  exact ⟨d ++ a, c ++ e, by rw [hz, hy]; simp⟩

/-- Every property of an object body prints verbatim inside the printed
body. -/
theorem printPropD_occurs :
    ∀ (b : JBody) (p : PropD), p ∈ propsList b → InfixOf (printPropD p) (printBody b)
  | .nil _, p, hp => by simp [propsList] at hp
  | .cons pre key pc poc v post comma rest, p, hp => by
    simp only [propsList, List.mem_cons] at hp
    rcases hp with hp | hp
    · subst hp
      refine ⟨[], (if comma then [','] else []) ++ printBody rest, ?_⟩
      simp [printBody, printPropD]
    · have ih := printPropD_occurs rest p hp
      have he : printBody (.cons pre key pc poc v post comma rest) =
          (pre ++ key ++ pc ++ ':' :: (poc ++ printVal v ++ post ++
            (if comma then [','] else []))) ++ printBody rest ++ [] := by
        simp [printBody]
      rw [he]
      exact InfixOf_mono ih _ _
termination_by structural b _ _ => b

/-- Replacing the value of the property named `n` does not disturb the
other properties. -/
theorem filter_mapPropValue :
    ∀ (b : JBody) (n : List Char) (f : JVal → JVal),
      (propsList (mapPropValue b n f)).filter (fun p => ! keyIs n p) =
        (propsList b).filter (fun p => ! keyIs n p)
  | .nil _, _, _ => rfl
  | .cons pre key pc poc v post comma rest, n, f => by
    by_cases hk : decodeKey key = some n
    · have hkey : keyIs n (⟨pre, key, pc, poc, v, post⟩ : PropD) = true := by
        simp [keyIs, hk]
      have hkey2 : keyIs n (⟨pre, key, pc, poc, f v, post⟩ : PropD) = true := by
        simp [keyIs, hk]
      simp [mapPropValue, hk, propsList, List.filter_cons, hkey, hkey2]
    · have hkey : keyIs n (⟨pre, key, pc, poc, v, post⟩ : PropD) = false := by
        simp [keyIs, hk]
      simp [mapPropValue, hk, propsList, List.filter_cons, hkey,
        filter_mapPropValue rest n f]
termination_by structural b _ _ => b

/-- Appending a property named `n` does not disturb the properties with
other names. -/
theorem filter_appendProp :
    ∀ (b : JBody) (key : List Char) (nv : JVal) (n : List Char),
      decodeKey key = some n →
      (propsList (appendProp b key nv)).filter (fun p => ! keyIs n p) =
        (propsList b).filter (fun p => ! keyIs n p)
  | .nil i, key, nv, n, hk => by
    have hkey : keyIs n (⟨i ++ [' '], key, [], [' '], nv, []⟩ : PropD) = true := by
      simp [keyIs, hk]
    simp [appendProp, propsList, List.filter_cons, hkey]
  | .cons pre k pc poc v post comma (.nil i), key, nv, n, hk => by
    have hkey : keyIs n (⟨i ++ [' '], key, [], [' '], nv, []⟩ : PropD) = true := by
      simp [keyIs, hk]
    simp [appendProp, propsList, List.filter_cons, hkey]
  | .cons pre k pc poc v post comma (.cons a1 a2 a3 a4 a5 a6 a7 a8), key, nv, n, hk => by
    have he : appendProp (.cons pre k pc poc v post comma
          (.cons a1 a2 a3 a4 a5 a6 a7 a8)) key nv =
        .cons pre k pc poc v post comma
          (appendProp (.cons a1 a2 a3 a4 a5 a6 a7 a8) key nv) := rfl
    rw [he]
    simp only [propsList, List.filter_cons]
    rw [filter_appendProp (.cons a1 a2 a3 a4 a5 a6 a7 a8) key nv n hk]
    simp only [propsList, List.filter_cons]
termination_by structural b _ _ _ _ => b

/-- Replacing the value of the first property named `n`, at the
property-list level. -/
theorem propsList_mapPropValue :
    ∀ (b : JBody) (n : List Char) (f : JVal → JVal) (v : JVal),
      findProp b n = some v →
      propsList (mapPropValue b n f) = setFirstValue (propsList b) n (f v)
  | .nil _, _, _, _, h => by cases h
  | .cons pre key pc poc v2 post comma rest, n, f, v, h => by
    simp only [findProp] at h
    by_cases hk : decodeKey key = some n
    · rw [if_pos hk] at h
      injection h with h
      subst h
      have hkey : keyIs n (⟨pre, key, pc, poc, v2, post⟩ : PropD) = true := by
        simp [keyIs, hk]
      simp [mapPropValue, hk, propsList, setFirstValue, hkey]
    · rw [if_neg hk] at h
      have hkey : keyIs n (⟨pre, key, pc, poc, v2, post⟩ : PropD) = false := by
        simp [keyIs, hk]
      simp [mapPropValue, hk, propsList, setFirstValue, hkey,
        propsList_mapPropValue rest n f v h]
termination_by structural b _ _ _ _ => b

/-- Appending a property, at the property-list level: all existing
properties stay, one property is added at the end. -/
theorem propsList_appendProp :
    ∀ (b : JBody) (key : List Char) (nv : JVal),
      ∃ pr, propsList (appendProp b key nv) =
        propsList b ++ [⟨pr, key, [], [' '], nv, []⟩]
  | .nil i, key, nv => ⟨i ++ [' '], by simp [appendProp, propsList]⟩
  | .cons pre k pc poc v post comma (.nil i), key, nv =>
    ⟨i ++ [' '], by simp [appendProp, propsList]⟩
  | .cons pre k pc poc v post comma (.cons a1 a2 a3 a4 a5 a6 a7 a8), key, nv => by
    obtain ⟨pr, hp⟩ := propsList_appendProp (.cons a1 a2 a3 a4 a5 a6 a7 a8) key nv
    have he : appendProp (.cons pre k pc poc v post comma
          (.cons a1 a2 a3 a4 a5 a6 a7 a8)) key nv =
        .cons pre k pc poc v post comma
          (appendProp (.cons a1 a2 a3 a4 a5 a6 a7 a8) key nv) := rfl
    exact ⟨pr, by rw [he]; simp [propsList, hp]⟩
termination_by structural b _ _ => b

/-- Replacing a property value never touches any trivia region of the
body. -/
theorem topTrivia_mapPropValue :
    ∀ (b : JBody) (n : List Char) (f : JVal → JVal),
      topTrivia (mapPropValue b n f) = topTrivia b
  | .nil _, _, _ => rfl
  | .cons pre key pc poc v post comma rest, n, f => by
    by_cases hk : decodeKey key = some n
    · simp [mapPropValue, hk, topTrivia]
    · simp [mapPropValue, hk, topTrivia, topTrivia_mapPropValue rest n f]
termination_by structural b _ _ => b

theorem mem_setFirstValue (l : List PropD) (n : List Char) (nv : JVal) (q : PropD)
    (hkq : keyIs n q = false) : q ∈ l → q ∈ setFirstValue l n nv := by
  induction l with
  | nil => intro hq; cases hq
  | cons p rest ih =>
    intro hq
    rcases List.mem_cons.mp hq with hq2 | hq2
    · subst hq2
      simp [setFirstValue, hkq]
    · by_cases hp : keyIs n p
      · simp only [setFirstValue, if_pos hp]
        exact List.mem_cons.mpr (.inr hq2)
      · simp only [setFirstValue, if_neg hp]
        exact List.mem_cons.mpr (.inr (ih hq2))

theorem findProp_mem :
    ∀ (b : JBody) (n : List Char) (v : JVal), findProp b n = some v →
      ∃ p, p ∈ propsList b ∧ p.value = v
  | .nil _, _, _, h => by cases h
  | .cons pre key pc poc v2 post comma rest, n, v, h => by
    simp only [findProp] at h
    by_cases hk : decodeKey key = some n
    · rw [if_pos hk] at h
      injection h with h
      exact ⟨⟨pre, key, pc, poc, v2, post⟩, by simp [propsList], h⟩
    · rw [if_neg hk] at h
      obtain ⟨p, hp, hv⟩ := findProp_mem rest n v h
      exact ⟨p, by simp [propsList, hp], hv⟩
termination_by structural b _ _ _ => b

/-! ## Claim theorems -/

/-- C9: a successful Zed install always rewrites the settings file: when
`auto_install_extensions.wakatime` is already literally `true`, the patch
still succeeds and the write happens — with content identical to what was
read (the result is `.ok` carrying the written text; the write is not
skipped in the no-change case). -/
theorem zed_install_rewrites_unchanged (cs : List Char) (r : JRoot) (b b2 : JBody)
    (hb : isBlank cs = false) (hr : parseRoot cs = some r)
    (hv : r.value = some (.obj b))
    (haie : findProp b aieName = some (.obj b2))
    (hwak : findProp b2 wakName = some (.raw trueRaw)) :
    Zed.add_extension_to_settings (some cs) = .ok cs := by
  have hb2fix : wakUpdate (.obj b2) = .obj b2 := by
    simp only [wakUpdate, hwak]
    rw [mapPropValue_eq_self b2 wakName _ _ hwak rfl]
  have hpatch : patchBody b = .ok b := by
    simp only [patchBody, orCreateAie, haie]
    rw [mapPropValue_eq_self b aieName wakUpdate _ haie hb2fix]
  have hprint := parseRoot_consumed cs r hr
  obtain ⟨pre, value, post⟩ := r
  have hv2 : value = some (JVal.obj b) := hv
  subst hv2
  simp [Zed.add_extension_to_settings, hb, hr, hpatch, hprint]

/-- C9 witness: a document whose `wakatime` is already `true` is rewritten
with exactly its original content. -/
theorem zed_install_rewrites_unchanged_witness :
    Zed.add_extension_to_settings
        (some "\x7b\"auto_install_extensions\": \x7b\"wakatime\": true\x7d\x7d".data) =
      .ok "\x7b\"auto_install_extensions\": \x7b\"wakatime\": true\x7d\x7d".data :=
  zed_install_rewrites_unchanged _ _ _ _ (by decide) rfl rfl rfl rfl

/-- C3: whenever the (non-blank) settings content is not valid tolerant
JSON, the patch returns the parse error; whenever the root value, or the
`auto_install_extensions` value, is not an object, it returns the
corresponding shape error.  In each case the result carries no written
content: the pipeline returns before `fs::write`, leaving the file on disk
unchanged. -/
theorem zed_patch_error_no_write :
    (∀ cs, parseRoot cs = none →
      Zed.add_extension_to_settings (some cs) = .error .parse) ∧
    (∀ cs r v, isBlank cs = false → parseRoot cs = some r → r.value = some v →
      (∀ b, v ≠ JVal.obj b) →
      Zed.add_extension_to_settings (some cs) = .error .rootShape) ∧
    (∀ cs r b v, isBlank cs = false → parseRoot cs = some r →
      r.value = some (JVal.obj b) → findProp b aieName = some v →
      (∀ b2, v ≠ JVal.obj b2) →
      Zed.add_extension_to_settings (some cs) = .error .aieShape) := by
  refine ⟨?_, ?_, ?_⟩
  · intro cs h
    have hb : isBlank cs = false := by
      cases hbb : isBlank cs with
      | false => rfl
      | true => rw [parseRoot_blank cs hbb] at h; cases h
    simp [Zed.add_extension_to_settings, hb, h]
  · intro cs r v hb hr hv hnobj
    obtain ⟨pre, value, post⟩ := r
    have hv2 : value = some v := hv
    subst hv2
    cases v with
    | obj b => exact absurd rfl (hnobj b)
    | raw s => simp [Zed.add_extension_to_settings, hb, hr]
    | arr a => simp [Zed.add_extension_to_settings, hb, hr]
  · intro cs r b v hb hr hv hfind hnobj
    obtain ⟨pre, value, post⟩ := r
    have hv2 : value = some (JVal.obj b) := hv
    subst hv2
    cases v with
    | obj b2 => exact absurd rfl (hnobj b2)
    | raw s => simp [Zed.add_extension_to_settings, hb, hr, patchBody, orCreateAie, hfind]
    | arr a => simp [Zed.add_extension_to_settings, hb, hr, patchBody, orCreateAie, hfind]

/-- C3 witness: `{"auto_install_extensions": 5}` fails with the shape
error, and `{garbage}` fails with the parse error. -/
theorem zed_patch_error_no_write_witness :
    Zed.add_extension_to_settings (some "\x7b\"auto_install_extensions\": 5\x7d".data) =
      .error .aieShape ∧
    Zed.add_extension_to_settings (some "{garbage}".data) = .error .parse := by
  constructor
  · exact zed_patch_error_no_write.2.2 "\x7b\"auto_install_extensions\": 5\x7d".data
      _ _ _ (by decide) rfl rfl rfl (fun b2 h => by cases h)
  · exact zed_patch_error_no_write.1 "{garbage}".data rfl

/-- C4: an absent settings file and a blank settings file are patched
identically, and the resulting document is, formatting aside, exactly
`{"auto_install_extensions":{"wakatime":true}}`. -/
theorem zed_patch_empty_input :
    (∀ s, isBlank s = true →
      Zed.add_extension_to_settings (some s) = Zed.add_extension_to_settings none) ∧
    (∃ out, Zed.add_extension_to_settings none = .ok out ∧
      canonDoc out = some "\x7b\"auto_install_extensions\":\x7b\"wakatime\":true\x7d\x7d".data) := by
  constructor
  · intro s hs
    simp only [Zed.add_extension_to_settings, hs, if_pos]
  · exact ⟨_, rfl, by decide⟩

/-- C4 witness: the whitespace-only document `"  \n"` is patched exactly
like the absent file. -/
theorem zed_patch_empty_input_witness :
    Zed.add_extension_to_settings (some "  \n".data) =
      Zed.add_extension_to_settings none :=
  zed_patch_empty_input.1 "  \n".data (by decide)

/-- C5: when the search-path lookup succeeds, CLI resolution returns its
result and never consults the fallback paths — for the VS Code family
(`which` crate), the JetBrains family (`which` command: success with
non-empty trimmed stdout), and the JetBrains Windows probe. -/
theorem resolver_path_priority :
    (∀ (p : String) (ex : String → Bool) (fb : List String),
      VsCodeFamily.find_cli (some p) ex fb = some p) ∧
    (∀ (ok : Bool) (out : String) (ex : String → Bool) (fb : List String) (p : String),
      JetBrainsFamily.whichLookup ok out = some p →
      JetBrainsFamily.find_cli ok out ex fb = some p) ∧
    (∀ (cmd : String) (ex : String → Bool) (fb : List String),
      JetBrainsFamily.find_cli_windows true cmd ex fb = some cmd) := by
  refine ⟨fun p ex fb => rfl, fun ok out ex fb p h => ?_, fun cmd ex fb => rfl⟩
  simp only [JetBrainsFamily.find_cli, h]

/-- C5 witness: with every fallback path existing on disk, resolution still
returns the search-path result. -/
theorem resolver_path_priority_witness :
    VsCodeFamily.find_cli (some "/usr/bin/code") (fun _ => true) ["/opt/code"] =
      some "/usr/bin/code" ∧
    JetBrainsFamily.find_cli true "/usr/bin/idea" (fun _ => true) ["/opt/idea"] =
      some "/usr/bin/idea" :=
  ⟨resolver_path_priority.1 _ _ _,
   resolver_path_priority.2.1 true "/usr/bin/idea" _ _ _ rfl⟩

/-- C6: when the search-path lookup fails, CLI resolution returns the first
fallback path (in listed order) that exists, and `none` — not an error —
when no fallback exists; for all three resolution variants. -/
theorem resolver_fallback_order :
    (∀ (ex : String → Bool) (fb : List String) (p : String),
      (VsCodeFamily.find_cli none ex fb = some p ↔ FirstHit ex fb p)) ∧
    (∀ (ex : String → Bool) (fb : List String),
      (VsCodeFamily.find_cli none ex fb = none ↔ ∀ q ∈ fb, ex q = false)) ∧
    (∀ (ok : Bool) (out : String) (ex : String → Bool) (fb : List String),
      JetBrainsFamily.whichLookup ok out = none →
      (∀ p, (JetBrainsFamily.find_cli ok out ex fb = some p ↔ FirstHit ex fb p)) ∧
      (JetBrainsFamily.find_cli ok out ex fb = none ↔ ∀ q ∈ fb, ex q = false)) ∧
    (∀ (cmd : String) (ex : String → Bool) (fb : List String) (p : String),
      JetBrainsFamily.find_cli_windows false cmd ex fb = some p ↔ FirstHit ex fb p) := by
  have hvs : ∀ (ex : String → Bool) (fb : List String),
      VsCodeFamily.find_cli none ex fb = fb.find? ex := fun ex fb => rfl
  refine ⟨?_, ?_, ?_, ?_⟩
  · intro ex fb p
    rw [hvs]
    exact find?_first_iff ex fb p
  · intro ex fb
    rw [hvs]
    simpa using List.find?_eq_none (p := ex) (l := fb)
  · intro ok out ex fb h
    have hj : JetBrainsFamily.find_cli ok out ex fb = fb.find? ex := by
      simp only [JetBrainsFamily.find_cli, h]
    constructor
    · intro p
      rw [hj]
      exact find?_first_iff ex fb p
    · rw [hj]
      simpa using List.find?_eq_none (p := ex) (l := fb)
  · intro cmd ex fb p
    simp only [JetBrainsFamily.find_cli_windows, Bool.false_eq_true, if_false]
    exact find?_first_iff ex fb p

/-- C6 witness: with fallbacks `[A, B, C]` where only `B` and `C` exist,
resolution returns `B`; with none existing it returns `none`. -/
theorem resolver_fallback_order_witness :
    VsCodeFamily.find_cli none (fun s => s == "B" || s == "C") ["A", "B", "C"] =
      some "B" ∧
    VsCodeFamily.find_cli none (fun _ => false) ["A", "B", "C"] = none := by
  constructor
  · exact (resolver_fallback_order.1 _ _ "B").mpr
      ⟨["A"], ["C"], rfl, by decide, by decide⟩
  · exact (resolver_fallback_order.2.1 _ _).mpr (by decide)

/-- C7: when CLI resolution fails by every strategy, `install()` returns
the not-found error naming the editor and the installer subprocess is not
spawned — for the VS Code and JetBrains families, whatever the subprocess
environment would have produced and (for JetBrains) whether or not the IDE
is running. -/
theorem install_not_found :
    (∀ (name : String) (which : Option String) (ex : String → Bool)
        (fb : List String) (outcome : SpawnOutcome),
      VsCodeFamily.find_cli which ex fb = none →
      VsCodeFamily.install name which ex fb outcome =
        ⟨false, .error (.notFound name)⟩) ∧
    (∀ (name : String) (isRunning ok : Bool) (out : String) (ex : String → Bool)
        (paths : List String) (outcome : SpawnOutcome),
      JetBrainsFamily.find_cli ok out ex paths = none →
      JetBrainsFamily.install name isRunning ok out ex paths outcome =
        ⟨false, .error (.notFound name)⟩) := by
  constructor
  · intro name which ex fb outcome h
    simp only [VsCodeFamily.install, h]
  · intro name isRunning ok out ex paths outcome h
    simp only [JetBrainsFamily.install, h]

/-- C7 witness: an environment with no search-path result and no existing
fallback path yields the not-found error with no installer spawn, even with
a subprocess environment that would have succeeded. -/
theorem install_not_found_witness :
    VsCodeFamily.install "VS Code" none (fun _ => false) ["/opt/code"]
        (.exited (some 0)) = ⟨false, .error (.notFound "VS Code")⟩ ∧
    JetBrainsFamily.install "IntelliJ IDEA" true false "" (fun _ => false)
        ["/opt/idea"] (.exited (some 0)) =
      ⟨false, .error (.notFound "IntelliJ IDEA")⟩ :=
  ⟨install_not_found.1 _ _ _ _ _ (by decide),
   install_not_found.2 _ _ _ _ _ _ _ (by decide)⟩

/-- C8: once the CLI is resolved and the installer subprocess runs,
`install()` succeeds iff the subprocess exits with status 0; a non-zero (or
missing) exit code yields the error naming the editor (with the exit code
included for the VS Code family). -/
theorem install_exit_status :
    (∀ (name : String) (which : Option String) (ex : String → Bool)
        (fb : List String) (p : String) (code : Option Int),
      VsCodeFamily.find_cli which ex fb = some p →
      ((VsCodeFamily.install name which ex fb (.exited code)).result = .ok () ↔
        code = some 0) ∧
      (VsCodeFamily.install name which ex fb (.exited code)).spawnedInstaller = true ∧
      (code ≠ some 0 →
        (VsCodeFamily.install name which ex fb (.exited code)).result =
          .error (.exitNonZero name code))) ∧
    (∀ (name : String) (isRunning ok : Bool) (out : String) (ex : String → Bool)
        (paths : List String) (p : String) (code : Option Int),
      JetBrainsFamily.find_cli ok out ex paths = some p →
      ((JetBrainsFamily.install name isRunning ok out ex paths
          (.exited code)).result = .ok () ↔ code = some 0) ∧
      (JetBrainsFamily.install name isRunning ok out ex paths
          (.exited code)).spawnedInstaller = true ∧
      (code ≠ some 0 →
        (JetBrainsFamily.install name isRunning ok out ex paths
          (.exited code)).result = .error (.installFailed name))) := by
  constructor
  · intro name which ex fb p code h
    simp only [VsCodeFamily.install, h, exitSuccess]
    by_cases hc : code = some 0
    · subst hc
      simp
    · simp [hc]
  · intro name isRunning ok out ex paths p code h
    simp only [JetBrainsFamily.install, h, exitSuccess]
    by_cases hc : code = some 0
    · subst hc
      simp
    · simp [hc]

/-- C8 witness: exit status 0 yields success, exit status 1 yields the
editor-naming error, in both families. -/
theorem install_exit_status_witness :
    ((VsCodeFamily.install "VS Code" (some "/usr/bin/code") (fun _ => false) []
        (.exited (some 0))).result = .ok () ↔ (some 0 : Option Int) = some 0) ∧
    ((JetBrainsFamily.install "IntelliJ IDEA" false true "/usr/bin/idea"
        (fun _ => false) [] (.exited (some 1))).result =
      .error (.installFailed "IntelliJ IDEA")) :=
  ⟨(install_exit_status.1 "VS Code" (some "/usr/bin/code") (fun _ => false) []
      "/usr/bin/code" (some 0) rfl).1,
   (install_exit_status.2 "IntelliJ IDEA" false true "/usr/bin/idea"
      (fun _ => false) [] "/usr/bin/idea" (some 1) rfl).2.2 (by decide)⟩

/-- C10: when the per-platform Zed configuration directory cannot be
determined, `install()` fails with that error whatever the settings file
contains — the result does not depend on the file content (no read), it
carries no written content (no write), and the Zed install path spawns no
subprocess at all. -/
theorem zed_install_no_config_dir :
    ∀ content : Option (List Char),
      Zed.install none content = .error .noConfigDir :=
  fun _ => rfl

/-- C10 witness: concrete instance with an existing settings file. -/
theorem zed_install_no_config_dir_witness :
    Zed.install none (some "\x7b\"a\": 1\x7d".data) = .error .noConfigDir :=
  zed_install_no_config_dir _


/-- C1: `Zed::add_extension_to_settings` is idempotent on the written text:
feeding a successful run's output back in succeeds again and returns the
same text byte-for-byte. -/
theorem zed_patch_idempotent (s t : List Char)
    (h : Zed.add_extension_to_settings (some s) = .ok t) :
    Zed.add_extension_to_settings (some t) = .ok t := by
  simp only [Zed.add_extension_to_settings] at h
  split at h
  · cases h
  · rename_i r hparse
    have hwf := parseRoot_wf _ r hparse
    split at h
    · rename_i b hvb
      split at h
      · cases h
      · rename_i b2 hpb
        injection h with h
        subst h
        obtain ⟨hpre, hvwf, hpost⟩ := hwf.2 _ hvb
        have hb : WFBody b := by cases hvwf with | obj _ hb => exact hb
        have hb2 : WFBody b2 := patchBody_wf b hb b2 hpb
        have hfix : patchBody b2 = Except.ok b2 := patchBody_fixpoint b b2 hpb
        have hreparse : parseRoot (printRoot ⟨r.pre, some (.obj b2), r.post⟩) =
            some ⟨r.pre, some (.obj b2), r.post⟩ :=
          root_reparse r.pre r.post (.obj b2) hpre (.obj b2 hb2) hpost
        have hmem : '{' ∈ printRoot ⟨r.pre, some (.obj b2), r.post⟩ := by
          simp [printRoot, printVal]
        have hbl : isBlank (printRoot ⟨r.pre, some (.obj b2), r.post⟩) = false :=
          isBlank_eq_false '{' hmem (by decide)
        simp only [Zed.add_extension_to_settings, hbl, Bool.false_eq_true, if_false,
          hreparse, hfix]
    · cases h
    · rename_i hvn
      split at h
      · cases h
      · rename_i b2 hpb
        injection h with h
        subst h
        obtain ⟨hpre0, hpost0⟩ := hwf.1 hvn
        have hb2 : WFBody b2 := patchBody_wf _ (.nil [] .nil) b2 hpb
        have hfix : patchBody b2 = Except.ok b2 := patchBody_fixpoint _ b2 hpb
        have hpre : TriviaRun (r.pre ++ ['\n']) := TriviaEnd_newline hpre0
        have hpost : TriviaEnd r.post := by rw [hpost0]; exact .run [] .nil
        have hreparse :
            parseRoot (printRoot ⟨r.pre ++ ['\n'], some (.obj b2), r.post⟩) =
            some ⟨r.pre ++ ['\n'], some (.obj b2), r.post⟩ :=
          root_reparse _ r.post (.obj b2) hpre (.obj b2 hb2) hpost
        have hmem : '{' ∈ printRoot ⟨r.pre ++ ['\n'], some (.obj b2), r.post⟩ := by
          simp [printRoot, printVal]
        have hbl : isBlank (printRoot ⟨r.pre ++ ['\n'], some (.obj b2), r.post⟩) = false :=
          isBlank_eq_false '{' hmem (by decide)
        simp only [Zed.add_extension_to_settings, hbl, Bool.false_eq_true, if_false,
          hreparse, hfix]

theorem zed_patch_idempotent_witness :
    Zed.add_extension_to_settings (some "\x7b\x7d".data) =
        .ok "\x7b \"auto_install_extensions\": \x7b \"wakatime\": true\x7d\x7d".data ∧
    Zed.add_extension_to_settings
        (some "\x7b \"auto_install_extensions\": \x7b \"wakatime\": true\x7d\x7d".data) =
      .ok "\x7b \"auto_install_extensions\": \x7b \"wakatime\": true\x7d\x7d".data :=
  ⟨by rfl, zed_patch_idempotent "\x7b\x7d".data _ (by rfl)⟩

/-- C2: frame property of the Zed settings patch.  On any successful run
the written text is exactly the original leading trivia, the root object
with its trailing trivia — so the root-level comments and formatting are
byte-identical — and inside the root object every property other than
`auto_install_extensions` is untouched (and its full source text, trivia
included, appears verbatim in the output); when `auto_install_extensions`
exists as an object, no trivia region of the root body changes, only the
value of that one property is replaced, every non-`wakatime` property of
the inner object appears verbatim in the output, and when `wakatime`
already exists only its value is replaced (its key, position and
surrounding trivia are kept). -/
theorem zed_patch_frame (s out : List Char) (r : JRoot) (b : JBody)
    (hbl : isBlank s = false) (hparse : parseRoot s = some r)
    (hval : r.value = some (.obj b))
    (hrun : Zed.add_extension_to_settings (some s) = .ok out) :
    ∃ b2, patchBody b = .ok b2 ∧
      out = r.pre ++ '\x7b' :: (printBody b2 ++ r.post) ∧
      (propsList b2).filter (fun p => ! keyIs aieName p) =
        (propsList b).filter (fun p => ! keyIs aieName p) ∧
      (∀ p, p ∈ propsList b → keyIs aieName p = false →
        InfixOf (printPropD p) out) ∧
      (∀ X, findProp b aieName = some (.obj X) →
        topTrivia b2 = topTrivia b ∧
        (∀ q, q ∈ propsList X → keyIs wakName q = false →
          InfixOf (printPropD q) out) ∧
        ∃ X2, propsList b2 = setFirstValue (propsList b) aieName (.obj X2) ∧
          (∀ W, findProp X wakName = some W →
            topTrivia X2 = topTrivia X ∧
            propsList X2 = setFirstValue (propsList X) wakName (.raw trueRaw))) := by
  obtain ⟨pre, value, post⟩ := r
  have hv2 : value = some (JVal.obj b) := hval
  subst hv2
  simp only [Zed.add_extension_to_settings, hbl, Bool.false_eq_true, if_false,
    hparse] at hrun
  cases hpb : patchBody b with
  | error e => rw [hpb] at hrun; cases hrun
  | ok b2 =>
    rw [hpb] at hrun
    injection hrun with hrun
    subst hrun
    have hout : printRoot ⟨pre, some (.obj b2), post⟩ =
        pre ++ '\x7b' :: (printBody b2 ++ post) := by
      simp [printRoot, printVal]
    have hbodyinf : InfixOf (printBody b2) (printRoot ⟨pre, some (.obj b2), post⟩) := by
      rw [hout]
      exact ⟨pre ++ ['\x7b'], post, by simp⟩
    have hpb2 := hpb
    simp only [patchBody, orCreateAie] at hpb2
    split at hpb2
    · cases hpb2
    · rename_i b1 heq
      injection hpb2 with hpb2
      split at heq
      · -- the key is absent: a fresh object is appended, then patched inside
        rename_i hnone
        injection heq with heq
        subst heq
        have hfilter : (propsList b2).filter (fun p => ! keyIs aieName p) =
            (propsList b).filter (fun p => ! keyIs aieName p) := by
          rw [← hpb2, filter_mapPropValue,
            filter_appendProp b aieKeyTok (.obj (.nil [])) aieName (by decide)]
        refine ⟨b2, rfl, hout.symm, hfilter, ?_, ?_⟩
        · intro p hp hkp
          have hp2 : p ∈ propsList b2 := by
            have hmf : p ∈ (propsList b).filter (fun p => ! keyIs aieName p) :=
              List.mem_filter.mpr ⟨hp, by simp [hkp]⟩
            rw [← hfilter] at hmf
            exact (List.mem_filter.mp hmf).1
          exact InfixOf_trans (printPropD_occurs b2 p hp2) hbodyinf
        · intro X hX
          rw [hnone] at hX
          cases hX
      · -- the key is present and maps to an object
        rename_i X0 hsome
        injection heq with heq
        subst heq
        have hfilter : (propsList b2).filter (fun p => ! keyIs aieName p) =
            (propsList b).filter (fun p => ! keyIs aieName p) := by
          rw [← hpb2, filter_mapPropValue]
        refine ⟨b2, rfl, hout.symm, hfilter, ?_, ?_⟩
        · intro p hp hkp
          have hp2 : p ∈ propsList b2 := by
            have hmf : p ∈ (propsList b).filter (fun p => ! keyIs aieName p) :=
              List.mem_filter.mpr ⟨hp, by simp [hkp]⟩
            rw [← hfilter] at hmf
            exact (List.mem_filter.mp hmf).1
          exact InfixOf_trans (printPropD_occurs b2 p hp2) hbodyinf
        · intro X hX
          have htop : topTrivia b2 = topTrivia b := by
            rw [← hpb2]
            exact topTrivia_mapPropValue b aieName wakUpdate
          have hfind2 : findProp b2 aieName = some (wakUpdate (.obj X)) := by
            rw [← hpb2, findProp_mapProp, hX]
            rfl
          have hprops : propsList b2 =
              setFirstValue (propsList b) aieName (wakUpdate (.obj X)) := by
            rw [← hpb2]
            exact propsList_mapPropValue b aieName wakUpdate (.obj X) hX
          refine ⟨htop, ?_, ?_⟩
          · -- every non-wakatime inner property is verbatim in the output
            intro q hq hkq
            cases hw : findProp X wakName with
            | none =>
              have hX2 : wakUpdate (.obj X) =
                  .obj (appendProp X wakKeyTok (.raw trueRaw)) := by
                simp [wakUpdate, hw]
              obtain ⟨pr, hap⟩ := propsList_appendProp X wakKeyTok (.raw trueRaw)
              have hq2 : q ∈ propsList (appendProp X wakKeyTok (.raw trueRaw)) := by
                rw [hap]
                exact List.mem_append_left _ hq
              obtain ⟨p2, hp2mem, hp2val⟩ := findProp_mem b2 aieName _ hfind2
              rw [hX2] at hp2val
              have h1 := printPropD_occurs _ q hq2
              have h2 : InfixOf (printBody (appendProp X wakKeyTok (.raw trueRaw)))
                  (printPropD p2) := by
                refine ⟨p2.pre ++ p2.key ++ p2.pc ++ ':' :: (p2.poc ++ ['\x7b']),
                  p2.post, ?_⟩
                simp [printPropD, hp2val, printVal]
              have h3 := printPropD_occurs b2 p2 hp2mem
              exact InfixOf_trans (InfixOf_trans (InfixOf_trans h1 h2) h3) hbodyinf
            | some W0 =>
              have hX2 : wakUpdate (.obj X) =
                  .obj (mapPropValue X wakName fun _ => .raw trueRaw) := by
                simp [wakUpdate, hw]
              have hq2 : q ∈ propsList (mapPropValue X wakName fun _ => .raw trueRaw) := by
                rw [propsList_mapPropValue X wakName _ W0 hw]
                exact mem_setFirstValue (propsList X) wakName (.raw trueRaw) q hkq hq
              obtain ⟨p2, hp2mem, hp2val⟩ := findProp_mem b2 aieName _ hfind2
              rw [hX2] at hp2val
              have h1 := printPropD_occurs _ q hq2
              have h2 : InfixOf (printBody (mapPropValue X wakName fun _ => .raw trueRaw))
                  (printPropD p2) := by
                refine ⟨p2.pre ++ p2.key ++ p2.pc ++ ':' :: (p2.poc ++ ['\x7b']),
                  p2.post, ?_⟩
                simp [printPropD, hp2val, printVal]
              have h3 := printPropD_occurs b2 p2 hp2mem
              exact InfixOf_trans (InfixOf_trans (InfixOf_trans h1 h2) h3) hbodyinf
          · cases hw : findProp X wakName with
            | none =>
              refine ⟨appendProp X wakKeyTok (.raw trueRaw), ?_, ?_⟩
              · rw [hprops]
                simp [wakUpdate, hw]
              · intro W hW
                cases hW
            | some W0 =>
              refine ⟨mapPropValue X wakName fun _ => .raw trueRaw, ?_, ?_⟩
              · rw [hprops]
                simp [wakUpdate, hw]
              · intro W hW
                exact ⟨topTrivia_mapPropValue X wakName _,
                  propsList_mapPropValue X wakName _ W0 hw⟩
      · cases heq

/-- C2 witness: the frame property at the document with one unrelated
property. -/
theorem zed_patch_frame_witness :
    ∃ b2, patchBody (JBody.cons [] "\"a\"".data [] [] (JVal.raw "1".data) [] false (JBody.nil [])) = Except.ok b2 ∧
      "\x7b\"a\":1, \"auto_install_extensions\": \x7b \"wakatime\": true\x7d\x7d".data =
        ([] : List Char) ++ '\x7b' :: (printBody b2 ++ ([] : List Char)) ∧
      (propsList b2).filter (fun p => ! keyIs aieName p) =
        (propsList (JBody.cons [] "\"a\"".data [] [] (JVal.raw "1".data) [] false (JBody.nil []))).filter (fun p => ! keyIs aieName p) ∧
      (∀ p, p ∈ propsList (JBody.cons [] "\"a\"".data [] [] (JVal.raw "1".data) [] false (JBody.nil [])) → keyIs aieName p = false →
        InfixOf (printPropD p) "\x7b\"a\":1, \"auto_install_extensions\": \x7b \"wakatime\": true\x7d\x7d".data) ∧
      (∀ X, findProp (JBody.cons [] "\"a\"".data [] [] (JVal.raw "1".data) [] false (JBody.nil [])) aieName = some (.obj X) →
        topTrivia b2 = topTrivia (JBody.cons [] "\"a\"".data [] [] (JVal.raw "1".data) [] false (JBody.nil [])) ∧
        (∀ q, q ∈ propsList X → keyIs wakName q = false →
          InfixOf (printPropD q) "\x7b\"a\":1, \"auto_install_extensions\": \x7b \"wakatime\": true\x7d\x7d".data) ∧
        ∃ X2, propsList b2 = setFirstValue (propsList (JBody.cons [] "\"a\"".data [] [] (JVal.raw "1".data) [] false (JBody.nil []))) aieName (.obj X2) ∧
          (∀ W, findProp X wakName = some W →
            topTrivia X2 = topTrivia X ∧
            propsList X2 = setFirstValue (propsList X) wakName (.raw trueRaw))) :=
  zed_patch_frame "\x7b\"a\":1\x7d".data
    "\x7b\"a\":1, \"auto_install_extensions\": \x7b \"wakatime\": true\x7d\x7d".data
    ⟨[], some (.obj (JBody.cons [] "\"a\"".data [] [] (JVal.raw "1".data) [] false (JBody.nil []))), []⟩
    (JBody.cons [] "\"a\"".data [] [] (JVal.raw "1".data) [] false (JBody.nil []))
    (by decide) (by rfl) rfl (by rfl)

end HackatimeSetup
